import Mathlib

/-!
Verification of the AP EAPCET rank-predictor core (src/python.py) against its
natural-language specification.

The embedding models:
* field values of the tabular dataset (`Value`): a string, a number, or NaN.
  Per the data model, rank fields are non-negative integers when present, so
  numerals are modelled as `Int` rather than IEEE floats.
* rows as association lists keyed by column name, each carrying its pandas
  index (assigned 0.. by `reset_index` in `load_data`);
* the query pipeline of `main` (lines 94 and 111-140): category selection
  with blank-to-NaN replacement, rank-input validation, the three `isin`
  filters, numeric coercion with `dropna`, the rank window, the column
  projection, and `sort_values`;
* `sort_values(by=rank_col)` with its default `kind='quicksort'`, which
  pandas delegates (via `nargsort`; the sorted column contains no NaN here
  because of the preceding `dropna`) to numpy's indirect introsort
  `npy_aquicksort` (numpy `npysort/quicksort.c.src`): median-of-3 Hoare
  partitioning for ranges longer than 16, insertion sort below that, and
  an indirect heapsort once the shared depth budget `2*msb(n)` is spent;
* the body-cell text rule of `generate_pdf` (lines 69-74).
-/

namespace ClgPredicter

/-- One field value of a record: a string, a numeric value, or NaN (missing).
Numerals are modelled as integers, following the data-model invariant that
rank fields are valid non-negative integers when present. -/
inductive Value where
  | str (s : String)
  | num (n : Int)
  | nan
  deriving DecidableEq, Repr

/-- A record row: an association list from column name to field value. -/
abbrev Row := List (String × Value)

/-- Reading `row[col]`: first binding of `col` in the row, NaN when absent. -/
def rowGet (r : Row) (col : String) : Value :=
  (r.lookup col).getD Value.nan

/-- Replace the value stored under `col` by `f` of it (column assignment). -/
def rowSet (r : Row) (col : String) (f : Value → Value) : Row :=
  r.map fun p => if p.1 = col then (p.1, f p.2) else p

/-- A dataset: the column list plus rows, each row tagged with its pandas
index (0-based positions after `reset_index` in `load_data`). -/
structure DataFrame where
  columns : List String
  rows : List (Nat × Row)
  deriving DecidableEq, Repr

/-- One user query: the selected caste/gender rank column, the raw rank text
from the input box, and the three multiselect filters. -/
structure Criteria where
  rankCol : String
  rankInput : String
  branches : List String
  dists : List String
  regions : List String
  deriving DecidableEq, Repr

/-- Python `str.strip()`: remove leading and trailing whitespace
(working on the code-point list of the string). -/
def pyStrip (s : String) : String :=
  ⟨(((s.data.dropWhile Char.isWhitespace).reverse.dropWhile Char.isWhitespace).reverse)⟩

/-- Value of a decimal digit string (as `int` reads one, sign aside). -/
def digitsToNat (l : List Char) : Nat :=
  l.foldl (fun acc c => acc * 10 + (c.toNat - 48)) 0

/-- The regex `^\s*$` of line 94: empty or whitespace-only string. -/
def pyIsBlank (s : String) : Bool :=
  s.data.all Char.isWhitespace

/-- The `replace(r'^\s*$', np.nan, regex=True)` step applied to one value (line 94):
whitespace-only strings become NaN; everything else is untouched. -/
def blankToNan (v : Value) : Value :=
  match v with
  | .str s => if pyIsBlank s then .nan else .str s
  | v => v

/-- Line 94: `df[rank_col] = df[rank_col].replace(r'^\s*$', np.nan, regex=True)`.
This writes back into the loaded dataset itself. -/
def selectCategory (df : DataFrame) (rankCol : String) : DataFrame :=
  { df with rows := df.rows.map fun r => (r.1, rowSet r.2 rankCol blankToNan) }

/-- Python `str.isdigit` (line 112), restricted to ASCII digit strings:
non-empty and every character a decimal digit. -/
def pyIsdigit (s : String) : Bool :=
  !s.data.isEmpty && s.data.all Char.isDigit

/-- Line 112: `not selected_rank or not selected_rank.strip().isdigit()`,
negated — the rank input is accepted iff it is non-empty and its stripped
form is a non-empty string of digits. -/
def validRankInput (s : String) : Bool :=
  !s.data.isEmpty && pyIsdigit (pyStrip s)

/-- Line 116: `int(selected_rank.strip())` on an accepted digit string. -/
def parseRank (s : String) : Nat :=
  digitsToNat (pyStrip s).data

/-- Integer-string parsing backing `pd.to_numeric` in this model: optional
sign and decimal digits, surrounding whitespace ignored. -/
def parseIntValue (s : String) : Option Int :=
  match (pyStrip s).data with
  | [] => none
  | c :: cs =>
    if c = '-' then
      if !cs.isEmpty && cs.all Char.isDigit then some (-(digitsToNat cs : Int)) else none
    else if c = '+' then
      if !cs.isEmpty && cs.all Char.isDigit then some ((digitsToNat cs : Int)) else none
    else if (c :: cs).all Char.isDigit then some ((digitsToNat (c :: cs) : Int)) else none

/-- Coercion `pd.to_numeric(x, errors='coerce')` on one value: numbers pass through,
numeric strings are parsed, anything else coerces to NaN. -/
def toNumeric (v : Value) : Value :=
  match v with
  | .num n => .num n
  | .str s => match parseIntValue s with
              | some n => .num n
              | none => .nan
  | .nan => .nan

/-- Membership `Series.isin(sel)` for one value against a list of strings:
string equality; numbers and NaN never match a string list. -/
def valueIn (v : Value) (sel : List String) : Bool :=
  match v with
  | .str s => sel.contains s
  | _ => false

/-- One `if selected: filtered_df = filtered_df[filtered_df[col].isin(selected)]`
step (lines 120-125): an empty selection leaves the dataset alone. -/
def applyIsinFilter (col : String) (sel : List String) (df : DataFrame) : DataFrame :=
  if sel.isEmpty then df
  else { df with rows := df.rows.filter fun r => valueIn (rowGet r.2 col) sel }

/-- Lines 120-125: the branch, district and region filters in program order. -/
def candidateFilter (df : DataFrame) (c : Criteria) : DataFrame :=
  applyIsinFilter "A_REG" c.regions
    (applyIsinFilter "DIST" c.dists
      (applyIsinFilter "branch_code" c.branches df))

/-- Line 127: `filtered_df[rank_col] = pd.to_numeric(filtered_df[rank_col], errors='coerce')`. -/
def coerceRankColumn (df : DataFrame) (col : String) : DataFrame :=
  { df with rows := df.rows.map fun r => (r.1, rowSet r.2 col toNumeric) }

/-- Line 128: `filtered_df.dropna(subset=[rank_col])`. -/
def dropnaRank (df : DataFrame) (col : String) : DataFrame :=
  { df with rows := df.rows.filter fun r => rowGet r.2 col != Value.nan }

/-- The window test of line 132 on one value: numeric and within
`[lower, upper]`; NaN comparisons are false in pandas. -/
def windowPred (lower upper : Int) (v : Value) : Bool :=
  match v with
  | .num n => decide (lower ≤ n ∧ n ≤ upper)
  | _ => false

/-- Line 132: `filtered_df[(filtered_df[rank_col] >= lower) & (filtered_df[rank_col] <= upper)]`. -/
def windowFilter (df : DataFrame) (col : String) (lower upper : Int) : DataFrame :=
  { df with rows := df.rows.filter fun r => windowPred lower upper (rowGet r.2 col) }

/-- Lines 135-138: the fixed `show_cols` projection list. -/
def showCols (rankCol : String) : List String :=
  ["INSTCODE", "NAME OF THE INSTITUTION", "INST_REG", "DIST", "A_REG",
   "branch_code", "PLACE", rankCol, "COLLFEE"]

/-- Line 139: `result_df[[col for col in show_cols if col in result_df.columns]]`. -/
def projectColumns (df : DataFrame) (cols : List String) : DataFrame :=
  let kept := cols.filter fun col => df.columns.contains col
  { columns := kept,
    rows := df.rows.map fun r => (r.1, kept.map fun col => (col, rowGet r.2 col)) }

/-- Sort key of a value in the rank column. At the sort site (line 140) the
column is entirely numeric — `dropna` ran at line 128 — so the NaN masking of
pandas `nargsort` never applies and only the `num` arm is reachable. -/
def keyOf (v : Value) : Int :=
  match v with
  | .num n => n
  | _ => 0

/-!
Indirect introsort of `sort_values(by=rank_col, kind='quicksort')`, the
default of line 140, following numpy's `npy_aquicksort` for a contiguous
key array (`npysort/quicksort.c.src`): `tosort` is the index array `t`,
comparisons read `keys[t[p]]`, `SMALL_QUICKSORT = 15`, the heapsort fallback
fires when the shared depth budget `2 * msb(n)` runs out. The recursion
carries explicit fuel for termination only; `npyArgsort` supplies more fuel
than the recursion depth can ever consume. -/

/-- Reading `v[*p]`: key of the index stored at slot `p` of the order array. -/
def vAt (keys : Array Int) (t : Array Nat) (p : Nat) : Int :=
  keys.getD (t.getD p 0) 0

/-- Swap two slots of the order array. -/
def aswap (t : Array Nat) (i j : Nat) : Array Nat :=
  let vi := t.getD i 0
  let vj := t.getD j 0
  (t.setD i vj).setD j vi

/-- Scan `do ++pi; while (LT(v[*pi], vp))` — advance past keys below the pivot.
The `pi < hi` guard is the array bound; in reachable states the pivot copy
at `hi - 1` already stops the scan, exactly as in the C code. The fuel only
bounds the loop for termination and is always supplied ≥ `hi`. -/
def scanUp (keys : Array Int) (fuel : Nat) (t : Array Nat) (vp : Int) (pi hi : Nat) : Nat :=
  match fuel with
  | 0 => pi + 1
  | fuel + 1 =>
    if pi + 1 < hi ∧ vAt keys t (pi + 1) < vp then scanUp keys fuel t vp (pi + 1) hi
    else pi + 1

/-- Scan `do --pj; while (LT(vp, v[*pj]))` — back off past keys above the pivot.
The `lo < pj` guard is the array bound; the median-of-3 sentinel at `lo`
already stops the scan in reachable states, exactly as in the C code. The
fuel only bounds the loop and is always supplied ≥ `pj`. -/
def scanDown (keys : Array Int) (fuel : Nat) (t : Array Nat) (vp : Int) (pj lo : Nat) : Nat :=
  match fuel with
  | 0 => pj - 1
  | fuel + 1 =>
    if lo < pj - 1 ∧ vp < vAt keys t (pj - 1) then scanDown keys fuel t vp (pj - 1) lo
    else pj - 1

/-- The Hoare partition exchange loop of `npy_aquicksort`: scan up, scan
down, stop when the pointers cross, otherwise swap and continue. -/
def hoareLoop (keys : Array Int) (fuel : Nat) (t : Array Nat) (vp : Int)
    (pi pj lo hi : Nat) : Array Nat × Nat :=
  match fuel with
  | 0 => (t, pi)
  | fuel + 1 =>
    let pi := scanUp keys hi t vp pi hi
    let pj := scanDown keys pj t vp pj lo
    if pi ≥ pj then (t, pi)
    else hoareLoop keys fuel (aswap t pi pj) vp pi pj lo hi

/-- The three median-of-3 comparisons that order `t[lo]`, `t[pm]`, `t[hi]`. -/
def med3 (keys : Array Int) (t : Array Nat) (lo hi : Nat) : Array Nat :=
  let pm := lo + (hi - lo) / 2
  let t := if vAt keys t pm < vAt keys t lo then aswap t pm lo else t
  let t := if vAt keys t hi < vAt keys t pm then aswap t hi pm else t
  let t := if vAt keys t pm < vAt keys t lo then aswap t pm lo else t
  t

/-- One `npy_aquicksort` partition step on `[lo, hi]`: median-of-3, park the
pivot index at `hi - 1`, run the exchange loop from `(lo, hi - 1)`, then
swap the pivot into its final slot. Returns the pivot position. -/
def partitionMed3 (keys : Array Int) (t : Array Nat) (lo hi : Nat) : Array Nat × Nat :=
  let pm := lo + (hi - lo) / 2
  let t := med3 keys t lo hi
  let vp := vAt keys t pm
  let t := aswap t pm (hi - 1)
  let r := hoareLoop keys (hi + 1) t vp lo (hi - 1) lo hi
  (aswap r.1 r.2 (hi - 1), r.2)

/-- Stable keyed insertion of index `x` into an already sorted index list:
`x` goes in front of the first strictly greater key, i.e. after all ties —
the placement of the shift loop of `npy_aquicksort`'s insertion sort. -/
def insKeyed (keys : Array Int) (x : Nat) : List Nat → List Nat
  | [] => [x]
  | y :: ys =>
    if keys.getD x 0 < keys.getD y 0 then x :: y :: ys
    else y :: insKeyed keys x ys

/-- The insertion sort of `npy_aquicksort` on a short range, as the
left-to-right fold of stable keyed insertions. -/
def sortKeyed (keys : Array Int) (xs : List Nat) : List Nat :=
  xs.foldl (fun acc x => insKeyed keys x acc) []

/-- Read the inclusive slot range `[lo, hi]` of the order array. -/
def segRead (t : Array Nat) (lo hi : Nat) : List Nat :=
  (List.range (hi + 1 - lo)).map fun k => t.getD (lo + k) 0

/-- Write a block of indices back over consecutive slots starting at `lo`. -/
def segWrite (t : Array Nat) (lo : Nat) (xs : List Nat) : Array Nat :=
  (t.toList.take lo ++ xs ++ t.toList.drop (lo + xs.length)).toArray

/-- Insertion-sort the inclusive slot range `[lo, hi]` of the order array. -/
def insertionSortRange (keys : Array Int) (t : Array Nat) (lo hi : Nat) : Array Nat :=
  segWrite t lo (sortKeyed keys (segRead t lo hi))

/-- Child selection inside the sift-down loop: `if (j < n && LT(v[a[j]],
v[a[j+1]])) j += 1` — move to the sibling when it carries the larger key. -/
def siftChild (keys : Array Int) (t : Array Nat) (lo j n : Nat) : Nat :=
  if j < n ∧ vAt keys t (lo + j - 1) < vAt keys t (lo + j) then j + 1 else j

/-- The sift-down loop shared by both passes of numpy's indirect heapsort
`npy_aheapsort`; `a[k]` is slot `lo + k - 1` (1-based heap in the range). -/
def siftDown (keys : Array Int) (fuel : Nat) (t : Array Nat) (lo : Nat)
    (tmp : Nat) (i j n : Nat) : Array Nat :=
  match fuel with
  | 0 => t
  | fuel + 1 =>
    if j ≤ n then
      if keys.getD tmp 0 < vAt keys t (lo + siftChild keys t lo j n - 1) then
        siftDown keys fuel
          (t.setD (lo + i - 1) (t.getD (lo + siftChild keys t lo j n - 1) 0)) lo tmp
          (siftChild keys t lo j n) (siftChild keys t lo j n + siftChild keys t lo j n) n
      else t.setD (lo + i - 1) tmp
    else t.setD (lo + i - 1) tmp

/-- Heapify pass of `npy_aheapsort`: `for (l = n >> 1; l > 0; --l)`. -/
def heapifyLoop (keys : Array Int) (t : Array Nat) (lo n l : Nat) : Array Nat :=
  match l with
  | 0 => t
  | l' + 1 =>
    let tmp := t.getD (lo + l') 0
    let t := siftDown keys (n + 2) t lo tmp (l' + 1) ((l' + 1) * 2) n
    heapifyLoop keys t lo n l'

/-- Extraction pass of `npy_aheapsort`: pop the maximum to the end and
re-sift, until one element remains. -/
def heapExtract (keys : Array Int) (t : Array Nat) (lo n : Nat) : Array Nat :=
  match n with
  | 0 => t
  | 1 => t
  | m + 2 =>
    let tmp := t.getD (lo + m + 1) 0
    let t := t.setD (lo + m + 1) (t.getD lo 0)
    let t := siftDown keys (m + 3) t lo tmp 1 2 (m + 1)
    heapExtract keys t lo (m + 1)

/-- Run `npy_aheapsort` on the inclusive slot range `[lo, hi]`. -/
def aheapsortRange (keys : Array Int) (t : Array Nat) (lo hi : Nat) : Array Nat :=
  let n := hi + 1 - lo
  heapExtract keys (heapifyLoop keys t lo n (n / 2)) lo n

/-- The `npy_aquicksort` driver on the inclusive range `[lo, hi]`: ranges of
more than 16 slots are partitioned, shorter ranges are insertion-sorted, and
the heapsort fallback fires once the shared depth budget is spent
(`depth_limit-- <= 0`, post-decremented). The smaller side is processed
first and the depth budget is threaded through in processing order,
mirroring the explicit stack. -/
def aquicksortMain (keys : Array Int) (fuel : Nat) (t : Array Nat)
    (lo hi : Nat) (depth : Int) : Array Nat × Int :=
  match fuel with
  | 0 => (t, depth)
  | fuel + 1 =>
    if hi - lo > 15 then
      if depth ≤ 0 then (aheapsortRange keys t lo hi, depth - 1)
      else
        let pr := partitionMed3 keys t lo hi
        let p := pr.2
        if p - lo < hi - p then
          let l := aquicksortMain keys fuel pr.1 lo (p - 1) (depth - 1)
          aquicksortMain keys fuel l.1 (p + 1) hi l.2
        else
          let r := aquicksortMain keys fuel pr.1 (p + 1) hi (depth - 1)
          aquicksortMain keys fuel r.1 lo (p - 1) r.2
    else (insertionSortRange keys t lo hi, depth)

/-- Halving loop behind `npyGetMsb`; the fuel only bounds the recursion
structurally and any fuel ≥ the argument is enough. -/
def msbAux : Nat → Nat → Nat
  | 0, _ => 0
  | fuel + 1, n => if n ≥ 2 then msbAux fuel (n / 2) + 1 else 0

/-- Position of the most significant bit (`npy_get_msb`), i.e. the floor of
the base-2 logarithm. -/
def npyGetMsb (n : Nat) : Nat := msbAux n n

/-- Argsort `np.argsort(keys, kind='quicksort')`: run the introsort on the identity
order array with depth budget `2 * msb(n)`. -/
def npyArgsort (keys : Array Int) : Array Nat :=
  let n := keys.size
  if n = 0 then #[]
  else (aquicksortMain keys (2 * n + 64) (Array.range n) 0 (n - 1) (2 * (npyGetMsb n : Int))).1

/-- Line 140: `result_df.sort_values(by=rank_col)` — reorder the rows by the
argsort of the rank-column keys (pandas `nargsort` with no NaN present). -/
def sortValues (df : DataFrame) (col : String) : DataFrame :=
  { df with rows := (npyArgsort ((df.rows.map fun r => keyOf (rowGet r.2 col)).toArray)).toList.filterMap (fun i => df.rows[i]?) }

/-- Lines 117-139 on the (copied) dataset: filters, coercion, `dropna`,
window restriction and projection — everything between validation and the
final sort. -/
def preSortDF (df : DataFrame) (c : Criteria) (rank : Int) : DataFrame :=
  projectColumns
    (windowFilter
      (dropnaRank (coerceRankColumn (candidateFilter df c) c.rankCol) c.rankCol)
      c.rankCol (max 0 (rank - 5000)) (rank + 25000))
    (showCols c.rankCol)

/-- Lines 117-140: the matching stage producing the ResultSet. -/
def matchStage (df : DataFrame) (c : Criteria) (rank : Int) : DataFrame :=
  sortValues (preSortDF df c rank) c.rankCol

/-- Failure of the rank validation at lines 112-114. -/
inductive PipelineError where
  | invalidRank
  deriving DecidableEq, Repr

/-- The query pipeline of `main` (lines 94 and 111-140). Line 94 runs while
the form is built, before validation, and writes into the loaded dataset, so
the pipeline returns the dataset as it is left behind together with either
the ResultSet or the validation failure. -/
def runPipeline (df : DataFrame) (c : Criteria) : DataFrame × Except PipelineError DataFrame :=
  let df1 := selectCategory df c.rankCol
  if validRankInput c.rankInput then
    (df1, Except.ok (matchStage df1 c (parseRank c.rankInput : Int)))
  else
    (df1, Except.error PipelineError.invalidRank)

/-- Display `str(row[col]) if pd.notnull(row[col]) else ''` (line 71): the text
of one body cell before truncation. -/
def cellDisplay (v : Value) : String :=
  match v with
  | .nan => ""
  | .str s => s
  | .num n => toString n

/-- Lines 72-73: body-cell text over 50 characters is clipped to its first
47 characters plus the three-character marker `...`. -/
def truncateCell (text : String) : String :=
  if text.length > 50 then ⟨text.data.take 47⟩ ++ "..." else text

/-- The text actually placed in a body cell by `generate_pdf` (lines 71-74). -/
def renderBodyCellText (v : Value) : String :=
  truncateCell (cellDisplay v)

/-! ## Basic lemmas about rows and columns -/

lemma rowGet_rowSet_self (r : Row) (col : String) (f : Value → Value)
    (hf : f Value.nan = Value.nan) :
    rowGet (rowSet r col f) col = f (rowGet r col) := by
  induction r with
  | nil => simp [rowGet, rowSet, List.lookup, hf]
  | cons p r ih =>
    obtain ⟨k, v⟩ := p
    by_cases h : k = col
    · subst h
      show rowGet ((if k = k then (k, f v) else (k, v)) :: rowSet r k f) k
          = f (rowGet ((k, v) :: r) k)
      rw [if_pos rfl]
      simp [rowGet, List.lookup]
    · have hk : (col == k) = false := beq_eq_false_iff_ne.mpr (Ne.symm h)
      show rowGet ((if k = col then (k, f v) else (k, v)) :: rowSet r col f) col
          = f (rowGet ((k, v) :: r) col)
      rw [if_neg h]
      simpa [rowGet, List.lookup, hk] using ih

lemma rowGet_rowSet_ne (r : Row) (col col' : String) (f : Value → Value)
    (h : col' ≠ col) :
    rowGet (rowSet r col f) col' = rowGet r col' := by
  induction r with
  | nil => simp [rowGet, rowSet]
  | cons p r ih =>
    obtain ⟨k, v⟩ := p
    by_cases hk : k = col
    · subst hk
      have hck : (col' == k) = false := beq_eq_false_iff_ne.mpr h
      show rowGet ((if k = k then (k, f v) else (k, v)) :: rowSet r k f) col'
          = rowGet ((k, v) :: r) col'
      rw [if_pos rfl]
      simpa [rowGet, List.lookup, hck] using ih
    · show rowGet ((if k = col then (k, f v) else (k, v)) :: rowSet r col f) col'
          = rowGet ((k, v) :: r) col'
      rw [if_neg hk]
      simp only [rowGet, List.lookup]
      cases hck : (col' == k) with
      | true => rfl
      | false => simpa [rowGet, List.lookup] using ih

lemma rowGet_mapCols (cols : List String) (r : Row) (c : String) (h : c ∈ cols) :
    rowGet (cols.map fun col => (col, rowGet r col)) c = rowGet r c := by
  induction cols with
  | nil => cases h
  | cons d cols ih =>
    by_cases hd : c = d
    · subst hd
      simp [rowGet, List.lookup]
    · have hck : (c == d) = false := by simp [beq_eq_false_iff_ne, hd]
      have hmem : c ∈ cols := by
        cases h with
        | head => exact absurd rfl hd
        | tail _ h => exact h
      simpa [rowGet, List.lookup, hck] using ih hmem

@[simp] lemma columns_selectCategory (df : DataFrame) (rc : String) :
    (selectCategory df rc).columns = df.columns := rfl

@[simp] lemma columns_applyIsinFilter (col : String) (sel : List String) (df : DataFrame) :
    (applyIsinFilter col sel df).columns = df.columns := by
  unfold applyIsinFilter
  split <;> rfl

@[simp] lemma columns_candidateFilter (df : DataFrame) (c : Criteria) :
    (candidateFilter df c).columns = df.columns := by
  simp [candidateFilter]

@[simp] lemma columns_coerceRankColumn (df : DataFrame) (col : String) :
    (coerceRankColumn df col).columns = df.columns := rfl

@[simp] lemma columns_dropnaRank (df : DataFrame) (col : String) :
    (dropnaRank df col).columns = df.columns := rfl

@[simp] lemma columns_windowFilter (df : DataFrame) (col : String) (lower upper : Int) :
    (windowFilter df col lower upper).columns = df.columns := rfl

@[simp] lemma columns_sortValues (df : DataFrame) (col : String) :
    (sortValues df col).columns = df.columns := rfl

@[simp] lemma columns_projectColumns (df : DataFrame) (cols : List String) :
    (projectColumns df cols).columns = cols.filter fun col => df.columns.contains col := rfl

/-- Everything the sort emits is a row of its input: the reordered frame is
built by indexing into the input rows. -/
lemma mem_of_mem_sortValues {df : DataFrame} {col : String} {r : Nat × Row}
    (h : r ∈ (sortValues df col).rows) : r ∈ df.rows := by
  simp only [sortValues, List.mem_filterMap] at h
  obtain ⟨i, _, hi⟩ := h
  exact List.getElem?_mem hi

/-- With an accepted rank input the pipeline reaches the matching stage. -/
lemma runPipeline_ok {df : DataFrame} {c : Criteria}
    (h1 : validRankInput c.rankInput = true) :
    (runPipeline df c).2 =
      Except.ok (matchStage (selectCategory df c.rankCol) c (parseRank c.rankInput : Int)) := by
  simp [runPipeline, h1]

/-- With a rejected rank input the pipeline fails before matching. -/
lemma runPipeline_error {df : DataFrame} {c : Criteria}
    (h1 : validRankInput c.rankInput = false) :
    (runPipeline df c).2 = Except.error PipelineError.invalidRank := by
  simp [runPipeline, h1]

/-- Membership in the pre-sort frame: every pre-sort row is the projection
of a window-surviving row. -/
lemma mem_preSortDF {df : DataFrame} {c : Criteria} {rank : Int} {r : Nat × Row}
    (h : r ∈ (preSortDF df c rank).rows) :
    ∃ r0 ∈ (windowFilter
        (dropnaRank (coerceRankColumn (candidateFilter df c) c.rankCol) c.rankCol)
        c.rankCol (max 0 (rank - 5000)) (rank + 25000)).rows,
      r = (r0.1, ((showCols c.rankCol).filter fun col => df.columns.contains col).map
            fun col => (col, rowGet r0.2 col)) := by
  simp only [preSortDF, projectColumns, List.mem_map, columns_windowFilter,
    columns_dropnaRank, columns_coerceRankColumn, columns_candidateFilter] at h
  obtain ⟨r0, h0, hr⟩ := h
  exact ⟨r0, h0, hr.symm⟩

lemma windowPred_num {lower upper : Int} {v : Value}
    (h : windowPred lower upper v = true) :
    ∃ n : Int, v = Value.num n ∧ lower ≤ n ∧ n ≤ upper := by
  cases v with
  | num n =>
    have h' : lower ≤ n ∧ n ≤ upper := by simpa [windowPred] using h
    exact ⟨n, rfl, h'.1, h'.2⟩
  | str s => simp [windowPred] at h
  | nan => simp [windowPred] at h

/-- The selected rank column survives the projection filter whenever the
dataset schema contains it. -/
lemma rankCol_mem_kept {df : DataFrame} {rc : String} (h : rc ∈ df.columns) :
    rc ∈ (showCols rc).filter fun col => df.columns.contains col := by
  refine List.mem_filter.mpr ⟨?_, ?_⟩
  · simp [showCols]
  · exact List.elem_iff.mpr h

/-! ## Witness fixtures: small concrete datasets and queries -/

/-- Two-record dataset with numeric ranks 20000 and 60000. -/
def dfW : DataFrame :=
  ⟨["INSTCODE", "branch_code", "OC_BOYS"],
   [(0, [("INSTCODE", Value.str "A"), ("branch_code", Value.str "CSE"),
         ("OC_BOYS", Value.num 20000)]),
    (1, [("INSTCODE", Value.str "B"), ("branch_code", Value.str "ECE"),
         ("OC_BOYS", Value.num 60000)])]⟩

/-- Query: category `OC_BOYS`, rank text `25000`, no filters. -/
def cW : Criteria := ⟨"OC_BOYS", "25000", [], [], []⟩

/-- The ResultSet of `dfW` under `cW`. -/
def resW : DataFrame := matchStage (selectCategory dfW "OC_BOYS") cW 25000

/-! ## C1 — the matching window -/

/-- C1: for the (positive-integer) target rank `r` drawn from the accepted
input, the window is `lower = max(0, r - 5000)`, `upper = r + 25000`, every
record of the ResultSet carries a numeric rank value `v` with
`lower ≤ v ≤ upper` (both ends inclusive), and for `r ≤ 5000` the lower
bound is `0`. -/
theorem C1_window_bounds (df : DataFrame) (c : Criteria) (res : DataFrame)
    (hvalid : validRankInput c.rankInput = true)
    (hcol : c.rankCol ∈ df.columns)
    (hres : (runPipeline df c).2 = Except.ok res) :
    ∀ row ∈ res.rows, ∃ v : Int,
      rowGet row.2 c.rankCol = Value.num v ∧
      max 0 ((parseRank c.rankInput : Int) - 5000) ≤ v ∧
      v ≤ (parseRank c.rankInput : Int) + 25000 ∧
      ((parseRank c.rankInput : Int) ≤ 5000 →
        max 0 ((parseRank c.rankInput : Int) - 5000) = 0) := by
  intro row hrow
  rw [runPipeline_ok hvalid] at hres
  have hres' : res = matchStage (selectCategory df c.rankCol) c (parseRank c.rankInput : Int) :=
    (Except.ok.injEq _ _).mp hres |>.symm
  subst hres'
  have hpre := mem_of_mem_sortValues hrow
  have hcol' : c.rankCol ∈ (selectCategory df c.rankCol).columns := by simpa using hcol
  obtain ⟨r0, hr0, hproj⟩ := mem_preSortDF hpre
  have hwin := (List.mem_filter.mp hr0).2
  obtain ⟨v, hv, hlow, hup⟩ := windowPred_num hwin
  refine ⟨v, ?_, hlow, hup, fun h => by omega⟩
  have hkept := rankCol_mem_kept hcol'
  rw [hproj, rowGet_mapCols _ _ _ hkept]
  exact hv

/-- Concrete instantiation of `C1_window_bounds` on `dfW`/`cW`. -/
theorem C1_window_bounds_witness :
    ∃ v : Int,
      rowGet (resW.rows.getD 0 (0, [])).2 "OC_BOYS" = Value.num v ∧
      max 0 ((parseRank "25000" : Int) - 5000) ≤ v ∧
      v ≤ (parseRank "25000" : Int) + 25000 ∧
      ((parseRank "25000" : Int) ≤ 5000 → max 0 ((parseRank "25000" : Int) - 5000) = 0) :=
  C1_window_bounds dfW cW resW (by decide) (by decide) rfl
    (resW.rows.getD 0 (0, [])) (by decide)

/-! ## Sublist and membership lemmas for the filter stages -/

lemma rows_applyIsinFilter_sublist (col : String) (sel : List String) (df : DataFrame) :
    (applyIsinFilter col sel df).rows.Sublist df.rows := by
  unfold applyIsinFilter
  split
  · exact List.Sublist.refl _
  · exact List.filter_sublist _

lemma rows_candidateFilter_sublist (df : DataFrame) (c : Criteria) :
    (candidateFilter df c).rows.Sublist df.rows := by
  unfold candidateFilter
  exact ((rows_applyIsinFilter_sublist _ _ _).trans
    (rows_applyIsinFilter_sublist _ _ _)).trans (rows_applyIsinFilter_sublist _ _ _)

lemma mem_applyIsinFilter {col : String} {sel : List String} {df : DataFrame} {r : Nat × Row} :
    r ∈ (applyIsinFilter col sel df).rows ↔
      r ∈ df.rows ∧ (sel = [] ∨ valueIn (rowGet r.2 col) sel = true) := by
  unfold applyIsinFilter
  cases hsel : sel with
  | nil => simp
  | cons a l => simp [List.mem_filter]

@[simp] lemma map_fst_selectCategory (df : DataFrame) (rc : String) :
    (selectCategory df rc).rows.map Prod.fst = df.rows.map Prod.fst := by
  simp [selectCategory, List.map_map, Function.comp]

@[simp] lemma map_fst_coerceRankColumn (df : DataFrame) (col : String) :
    (coerceRankColumn df col).rows.map Prod.fst = df.rows.map Prod.fst := by
  simp [coerceRankColumn, List.map_map, Function.comp]

@[simp] lemma map_fst_projectColumns (df : DataFrame) (cols : List String) :
    (projectColumns df cols).rows.map Prod.fst = df.rows.map Prod.fst := by
  simp [projectColumns, List.map_map, Function.comp]

/-- The surviving indices before the sort form a subsequence of the dataset's
index sequence: every stage between line 117 and line 139 is a `filter` or a
row-wise `map` that keeps the index. -/
lemma preSortDF_indices_sublist (df : DataFrame) (c : Criteria) (rank : Int) :
    ((preSortDF df c rank).rows.map Prod.fst).Sublist (df.rows.map Prod.fst) := by
  unfold preSortDF
  rw [map_fst_projectColumns]
  refine List.Sublist.trans (List.Sublist.map Prod.fst (List.filter_sublist _)) ?_
  unfold dropnaRank
  refine List.Sublist.trans (List.Sublist.map Prod.fst (List.filter_sublist _)) ?_
  rw [map_fst_coerceRankColumn]
  exact List.Sublist.map Prod.fst (rows_candidateFilter_sublist df c)

/-- Two rows of an index-nodup dataset with the same index coincide. -/
lemma row_eq_of_nodup_fst {l : List (Nat × Row)} (h : (l.map Prod.fst).Nodup)
    {i : Nat} {a b : Row} (ha : (i, a) ∈ l) (hb : (i, b) ∈ l) : a = b := by
  have := List.inj_on_of_nodup_map h ha hb rfl
  exact congrArg Prod.snd this

/-! ## C5 — the categorical membership filters -/

/-- C5: a non-empty selection for a dimension retains exactly the records
whose field value is a string belonging to the selection (string equality,
via `valueIn`); an empty selection leaves the dataset untouched, and
`CandidateFilter` is the intersection of the three dimensions. -/
theorem C5_candidate_filter (df : DataFrame) (c : Criteria) :
    (∀ col sel, (sel = [] → applyIsinFilter col sel df = df) ∧
      (sel ≠ [] → (applyIsinFilter col sel df).rows =
        df.rows.filter fun r => valueIn (rowGet r.2 col) sel)) ∧
    ∀ r, r ∈ (candidateFilter df c).rows ↔
      r ∈ df.rows ∧
      (c.branches = [] ∨ valueIn (rowGet r.2 "branch_code") c.branches = true) ∧
      (c.dists = [] ∨ valueIn (rowGet r.2 "DIST") c.dists = true) ∧
      (c.regions = [] ∨ valueIn (rowGet r.2 "A_REG") c.regions = true) := by
  constructor
  · intro col sel
    constructor
    · intro h
      subst h
      rfl
    · intro h
      unfold applyIsinFilter
      rw [if_neg (by simpa [List.isEmpty_iff] using h)]
  · intro r
    unfold candidateFilter
    simp only [mem_applyIsinFilter, rowGet]
    tauto

/-- Concrete instantiation of `C5_candidate_filter`: an empty selection is
a no-op and a non-empty one filters by membership. -/
theorem C5_candidate_filter_witness :
    applyIsinFilter "branch_code" [] dfW = dfW ∧
    (applyIsinFilter "branch_code" ["CSE"] dfW).rows =
      dfW.rows.filter (fun r => valueIn (rowGet r.2 "branch_code") ["CSE"]) :=
  ⟨((C5_candidate_filter dfW cW).1 "branch_code" []).1 rfl,
   ((C5_candidate_filter dfW cW).1 "branch_code" ["CSE"]).2 (by decide)⟩

/-! ## C10 — pre-sort stages preserve dataset order -/

/-- C10: every stage before the final sort (the three membership filters,
the numeric coercion with its `dropna`, the window restriction and the
projection) preserves the relative order of the surviving records: their
index sequence is a subsequence of the dataset's index sequence — both for
the frame the matcher works on and relative to the dataset as loaded. -/
theorem C10_prefilter_order (df : DataFrame) (c : Criteria) (rank : Int) :
    ((preSortDF df c rank).rows.map Prod.fst).Sublist (df.rows.map Prod.fst) ∧
    ((preSortDF (selectCategory df c.rankCol) c rank).rows.map Prod.fst).Sublist
      (df.rows.map Prod.fst) := by
  refine ⟨preSortDF_indices_sublist df c rank, ?_⟩
  have h := preSortDF_indices_sublist (selectCategory df c.rankCol) c rank
  rwa [map_fst_selectCategory] at h

/-! ## C4 — records failing numeric coercion are silently excluded -/

/-- C4: a record whose selected rank field fails numeric coercion (blank,
non-numeric or absent — i.e. line 94's blank replacement followed by line
127's `to_numeric` yields NaN) never reaches the ResultSet, and its
exclusion raises no error: the pipeline still returns a ResultSet. -/
theorem C4_coercion_failure_excluded (df : DataFrame) (c : Criteria) (i : Nat) (row : Row)
    (hvalid : validRankInput c.rankInput = true)
    (hnd : (df.rows.map Prod.fst).Nodup)
    (hmem : (i, row) ∈ df.rows)
    (hfail : toNumeric (blankToNan (rowGet row c.rankCol)) = Value.nan) :
    ∃ res, (runPipeline df c).2 = Except.ok res ∧ i ∉ res.rows.map Prod.fst := by
  refine ⟨_, runPipeline_ok hvalid, ?_⟩
  intro hin
  obtain ⟨rr, hrr, hfst⟩ := List.mem_map.mp hin
  have hpre := mem_of_mem_sortValues hrr
  obtain ⟨r0, hr0, hproj⟩ := mem_preSortDF hpre
  obtain ⟨i0, row0⟩ := r0
  have hdrop := (List.mem_filter.mp hr0).1
  have hne : rowGet row0 c.rankCol ≠ Value.nan := by
    have h2 := (List.mem_filter.mp hdrop).2
    simpa [bne_iff_ne] using h2
  have hco := (List.mem_filter.mp hdrop).1
  obtain ⟨⟨i1, row1⟩, hr1, hr0eq⟩ := List.mem_map.mp hco
  have hcand : (i1, row1) ∈ (selectCategory df c.rankCol).rows :=
    (rows_candidateFilter_sublist _ _).subset hr1
  obtain ⟨⟨i2, row2⟩, hr2, hr1eq⟩ := List.mem_map.mp hcand
  have hi01 : i1 = i0 := congrArg Prod.fst hr0eq
  have hrow01 : rowSet row1 c.rankCol toNumeric = row0 := congrArg Prod.snd hr0eq
  have hi12 : i2 = i1 := congrArg Prod.fst hr1eq
  have hrow12 : rowSet row2 c.rankCol blankToNan = row1 := congrArg Prod.snd hr1eq
  have hi0 : i0 = i := by
    rw [hproj] at hfst
    exact hfst
  have hi2 : i2 = i := by omega
  rw [hi2] at hr2
  have hrow2 : row2 = row := row_eq_of_nodup_fst hnd hr2 hmem
  apply hne
  rw [← hrow01, rowGet_rowSet_self _ _ _ rfl, ← hrow12,
    rowGet_rowSet_self _ _ _ rfl, hrow2, hfail]

/-- Dataset with a blank (whitespace-only) rank entry in record 0. -/
def dfB : DataFrame :=
  ⟨["INSTCODE", "OC_BOYS"],
   [(0, [("INSTCODE", Value.str "A"), ("OC_BOYS", Value.str " ")]),
    (1, [("INSTCODE", Value.str "B"), ("OC_BOYS", Value.num 26000)])]⟩

/-- Query against `dfB`: category `OC_BOYS`, rank text `25000`, no filters. -/
def cB : Criteria := ⟨"OC_BOYS", "25000", [], [], []⟩

/-- Query with the rank text `0`. -/
def cZ : Criteria := ⟨"OC_BOYS", "0", [], [], []⟩

/-- Concrete instantiation of `C4_coercion_failure_excluded`: the blank-rank
record of `dfB` is dropped without an error. -/
theorem C4_coercion_failure_excluded_witness :
    ∃ res, (runPipeline dfB cB).2 = Except.ok res ∧ 0 ∉ res.rows.map Prod.fst :=
  C4_coercion_failure_excluded dfB cB 0
    [("INSTCODE", Value.str "A"), ("OC_BOYS", Value.str " ")]
    (by decide) (by decide) (by decide) (by decide)

/-! ## C3 — rank-input validation -/

/-- C3 refutation: the rank text `0` denotes the non-positive rank 0, yet
line 112's `isdigit` check accepts it and the pipeline proceeds to matching
instead of failing. -/
theorem C3_counterexample :
    validRankInput cZ.rankInput = true ∧
    parseRank cZ.rankInput = 0 ∧
    (runPipeline dfW cZ).2 ≠ Except.error PipelineError.invalidRank := by
  refine ⟨by decide, by decide, ?_⟩
  rw [runPipeline_ok (by decide)]
  simp

/-- C3 (amended): the pipeline fails with `InvalidRankError` before any
matching exactly when the rank input is missing (empty) or not a digit
string after stripping; a pure digit string always proceeds to matching —
including `"0"`, whose value 0 is not a positive integer, so non-positive
inputs are not fully rejected. -/
theorem C3_amended (df : DataFrame) (c : Criteria) :
    ((runPipeline df c).2 = Except.error PipelineError.invalidRank ↔
      validRankInput c.rankInput = false) ∧
    (validRankInput c.rankInput = true →
      (runPipeline df c).2 =
        Except.ok (matchStage (selectCategory df c.rankCol) c (parseRank c.rankInput : Int))) ∧
    validRankInput "0" = true := by
  refine ⟨⟨?_, runPipeline_error⟩, fun h => runPipeline_ok h, by decide⟩
  intro h
  cases hv : validRankInput c.rankInput
  · rfl
  · rw [runPipeline_ok hv] at h
    exact absurd h (by simp)

/-- Concrete instantiation of `C3_amended`: an accepted digit input reaches
the matching stage. -/
theorem C3_amended_witness :
    (runPipeline dfW cW).2 =
      Except.ok (matchStage (selectCategory dfW cW.rankCol) cW (parseRank cW.rankInput : Int)) :=
  (C3_amended dfW cW).2.1 (by decide)

/-! ## C6 — mutation of the input dataset -/

/-- The dataset handed back by the pipeline is the one line 94 wrote into,
whatever the validation outcome. -/
lemma runPipeline_fst (df : DataFrame) (c : Criteria) :
    (runPipeline df c).1 = selectCategory df c.rankCol := by
  unfold runPipeline
  split <;> rfl

/-- C6 refutation: on a dataset whose selected rank column contains a
whitespace-only string, the pipeline leaves the input dataset changed —
line 94 overwrites that entry with NaN in place. -/
theorem C6_counterexample : (runPipeline dfB cB).1 ≠ dfB := by decide

/-- C6 (amended): the matching stages work on a copy (lines 117-140 never
touch the input), but the category-selection step of line 94 writes into
the input dataset: every whitespace-only string in the selected rank column
becomes NaN. Columns, row order, every other column's values, and every
non-blank rank value are unchanged. -/
theorem C6_amended (df : DataFrame) (c : Criteria) :
    ((runPipeline df c).1.columns = df.columns) ∧
    ((runPipeline df c).1.rows =
      df.rows.map fun r => (r.1, rowSet r.2 c.rankCol blankToNan)) ∧
    (∀ r : Nat × Row, r ∈ df.rows → ∀ col, col ≠ c.rankCol →
      rowGet (rowSet r.2 c.rankCol blankToNan) col = rowGet r.2 col) ∧
    (∀ v, blankToNan v = v ∨
      ∃ s, v = Value.str s ∧ pyIsBlank s = true ∧ blankToNan v = Value.nan) := by
  refine ⟨by rw [runPipeline_fst]; rfl, by rw [runPipeline_fst]; rfl, ?_, ?_⟩
  · intro r _ col hcol
    exact rowGet_rowSet_ne _ _ _ _ hcol
  · intro v
    cases v with
    | str s =>
      by_cases hb : pyIsBlank s = true
      · exact Or.inr ⟨s, rfl, hb, by simp [blankToNan, hb]⟩
      · exact Or.inl (by simp [blankToNan, hb])
    | num n => exact Or.inl rfl
    | nan => exact Or.inl rfl

/-- Concrete instantiation of `C6_amended`: columns other than the selected
rank column keep their values. -/
theorem C6_amended_witness :
    rowGet (rowSet [("INSTCODE", Value.str "A"), ("OC_BOYS", Value.str " ")]
      cB.rankCol blankToNan) "INSTCODE"
    = rowGet [("INSTCODE", Value.str "A"), ("OC_BOYS", Value.str " ")] "INSTCODE" :=
  (C6_amended dfB cB).2.2.1 (0, [("INSTCODE", Value.str "A"), ("OC_BOYS", Value.str " ")])
    (by decide) "INSTCODE" (by decide)

/-! ## C7 — body-cell truncation -/

/-- C7: a body cell whose display text exceeds 50 characters renders as
exactly its first 47 characters followed by the 3-character marker `...`
(yielding 50 characters); text of at most 50 characters renders unmodified. -/
theorem C7_truncation (v : Value) :
    ((cellDisplay v).length > 50 →
      renderBodyCellText v = (⟨(cellDisplay v).data.take 47⟩ : String) ++ "..." ∧
      ((⟨(cellDisplay v).data.take 47⟩ : String)).length = 47 ∧
      ("..." : String).length = 3 ∧
      (renderBodyCellText v).length = 50) ∧
    ((cellDisplay v).length ≤ 50 → renderBodyCellText v = cellDisplay v) := by
  constructor
  · intro h
    have hlen : (cellDisplay v).data.length > 50 := h
    refine ⟨by simp [renderBodyCellText, truncateCell, h], ?_, rfl, ?_⟩
    · show ((cellDisplay v).data.take 47).length = 47
      simp [List.length_take]
      omega
    · show (renderBodyCellText v).data.length = 50
      simp only [renderBodyCellText, truncateCell, if_pos h]
      show (((cellDisplay v).data.take 47) ++ ('.' :: '.' :: '.' :: [])).length = 50
      simp [List.length_take]
      omega
  · intro h
    have h' : ¬ (cellDisplay v).length > 50 := by omega
    simp [renderBodyCellText, truncateCell, h']

/-- Concrete instantiation of `C7_truncation` on a 60-character text and a
2-character text. -/
theorem C7_truncation_witness :
    renderBodyCellText (Value.str "aaaaaaaaaaaaaaaaaaaaaaaaaaaaaaaaaaaaaaaaaaaaaaaaaaaaaaaaaaaa")
      = (⟨(cellDisplay (Value.str "aaaaaaaaaaaaaaaaaaaaaaaaaaaaaaaaaaaaaaaaaaaaaaaaaaaaaaaaaaaa")).data.take 47⟩ : String) ++ "..." ∧
    renderBodyCellText (Value.str "hi") = cellDisplay (Value.str "hi") :=
  ⟨((C7_truncation (Value.str "aaaaaaaaaaaaaaaaaaaaaaaaaaaaaaaaaaaaaaaaaaaaaaaaaaaaaaaaaaaa")).1
      (by decide)).1,
   (C7_truncation (Value.str "hi")).2 (by decide)⟩

/-! ## C9 — the fixed column projection -/

/-- When every projected column exists in the schema, the projection filter
keeps the whole `show_cols` list. -/
lemma kept_eq_showCols {df : DataFrame} {rc : String}
    (h : ∀ col ∈ showCols rc, col ∈ df.columns) :
    ((showCols rc).filter fun col => df.columns.contains col) = showCols rc :=
  List.filter_eq_self.mpr fun a ha => List.elem_iff.mpr (h a ha)

/-- C9: with the expected schema present, the ResultSet consists exactly of
the fixed projection — institution code, institution name, institution
region, district, affiliation region, branch code, place, the selected
category's rank column, fee — in that declared order, both as the frame's
column list and as the column list of every record. -/
theorem C9_projection (df : DataFrame) (c : Criteria)
    (hvalid : validRankInput c.rankInput = true)
    (hcols : ∀ col ∈ showCols c.rankCol, col ∈ df.columns) :
    ∃ res, (runPipeline df c).2 = Except.ok res ∧
      res.columns = showCols c.rankCol ∧
      ∀ r ∈ res.rows, r.2.map Prod.fst = showCols c.rankCol := by
  refine ⟨_, runPipeline_ok hvalid, ?_, ?_⟩
  · show (matchStage (selectCategory df c.rankCol) c (parseRank c.rankInput : Int)).columns
      = showCols c.rankCol
    unfold matchStage preSortDF
    rw [columns_sortValues, columns_projectColumns]
    simp only [columns_windowFilter, columns_dropnaRank, columns_coerceRankColumn,
      columns_candidateFilter, columns_selectCategory]
    exact kept_eq_showCols hcols
  · intro r hr
    have hpre := mem_of_mem_sortValues hr
    obtain ⟨r0, _, hproj⟩ := mem_preSortDF hpre
    rw [hproj]
    show (((showCols c.rankCol).filter fun col =>
        (selectCategory df c.rankCol).columns.contains col).map
          fun col => (col, rowGet r0.2 col)).map Prod.fst = showCols c.rankCol
    rw [kept_eq_showCols (by simpa using hcols), List.map_map]
    exact List.map_id _

/-- Dataset exposing the full projected schema. -/
def df9 : DataFrame :=
  ⟨showCols "OC_BOYS",
   [(0, (showCols "OC_BOYS").map fun col =>
      (col, if col = "OC_BOYS" then Value.num 26000 else Value.str "x"))]⟩

/-- Concrete instantiation of `C9_projection` on `df9`. -/
theorem C9_projection_witness :
    ∃ res, (runPipeline df9 cW).2 = Except.ok res ∧
      res.columns = showCols cW.rankCol ∧
      ∀ r ∈ res.rows, r.2.map Prod.fst = showCols cW.rankCol :=
  C9_projection df9 cW (by decide) (by decide)

/-! ## C2 — ordering of the ResultSet -/

/-- The ordering the specification claims for the ResultSet: strictly
ascending in the selected rank value, ties broken by original dataset
index. -/
def stableByRank (col : String) (a b : Nat × Row) : Prop :=
  keyOf (rowGet a.2 col) < keyOf (rowGet b.2 col) ∨
    (keyOf (rowGet a.2 col) = keyOf (rowGet b.2 col) ∧ a.1 < b.1)

instance (col : String) (a b : Nat × Row) : Decidable (stableByRank col a b) := by
  unfold stableByRank
  infer_instance

/-- Lexicographic strict order on positions: ascending key, ties by
position. -/
def lexLT (keys : Array Int) (a b : Nat) : Prop :=
  keys.getD a 0 < keys.getD b 0 ∨ (keys.getD a 0 = keys.getD b 0 ∧ a < b)

lemma mem_insKeyed {keys : Array Int} {x z : Nat} {l : List Nat} :
    z ∈ insKeyed keys x l ↔ z = x ∨ z ∈ l := by
  induction l with
  | nil => simp [insKeyed]
  | cons y ys ih =>
    unfold insKeyed
    split
    · simp only [List.mem_cons]
    · simp only [List.mem_cons, ih]
      tauto

lemma pairwise_insKeyed {keys : Array Int} {x : Nat} {l : List Nat}
    (hl : l.Pairwise (lexLT keys)) (hx : ∀ y ∈ l, y < x) :
    (insKeyed keys x l).Pairwise (lexLT keys) := by
  induction l with
  | nil => simp [insKeyed]
  | cons y ys ih =>
    rw [List.pairwise_cons] at hl
    unfold insKeyed
    split
    · rename_i hxy
      refine List.Pairwise.cons ?_ (List.Pairwise.cons hl.1 hl.2)
      intro z hz
      rcases List.mem_cons.mp hz with rfl | hz'
      · exact Or.inl hxy
      · rcases hl.1 z hz' with h | ⟨heq, _⟩
        · exact Or.inl (hxy.trans h)
        · exact Or.inl (heq ▸ hxy)
    · rename_i hxy
      have hky : keys.getD y 0 ≤ keys.getD x 0 := not_lt.mp hxy
      refine List.Pairwise.cons ?_
        (ih hl.2 fun z hz => hx z (List.mem_cons_of_mem _ hz))
      intro z hz
      rcases mem_insKeyed.mp hz with rfl | hz'
      · rcases lt_or_eq_of_le hky with h | h
        · exact Or.inl h
        · exact Or.inr ⟨h, hx y (List.mem_cons_self _ _)⟩
      · exact hl.1 z hz'

lemma foldl_insKeyed_mem (keys : Array Int) :
    ∀ (xs acc : List Nat) (z : Nat),
      z ∈ xs.foldl (fun a x => insKeyed keys x a) acc ↔ z ∈ acc ∨ z ∈ xs := by
  intro xs
  induction xs with
  | nil => simp
  | cons x xs ih =>
    intro acc z
    rw [List.foldl_cons, ih, mem_insKeyed]
    simp only [List.mem_cons]
    tauto

lemma foldl_insKeyed_pairwise (keys : Array Int) :
    ∀ (xs acc : List Nat),
      acc.Pairwise (lexLT keys) → (∀ y ∈ acc, ∀ x ∈ xs, y < x) →
      xs.Pairwise (· < ·) →
      (xs.foldl (fun a x => insKeyed keys x a) acc).Pairwise (lexLT keys) := by
  intro xs
  induction xs with
  | nil =>
    intro acc h _ _
    simpa using h
  | cons x xs ih =>
    intro acc hacc hbound hxs
    rw [List.pairwise_cons] at hxs
    rw [List.foldl_cons]
    apply ih
    · exact pairwise_insKeyed hacc fun y hy => hbound y hy x (List.mem_cons_self _ _)
    · intro y hy x' hx'
      rcases mem_insKeyed.mp hy with rfl | hy'
      · exact hxs.1 x' hx'
      · exact hbound y hy' x' (List.mem_cons_of_mem _ hx')
    · exact hxs.2

lemma sortKeyed_pairwise (keys : Array Int) {xs : List Nat}
    (hxs : xs.Pairwise (· < ·)) : (sortKeyed keys xs).Pairwise (lexLT keys) :=
  foldl_insKeyed_pairwise keys xs [] List.Pairwise.nil (by simp) hxs

lemma mem_sortKeyed {keys : Array Int} {xs : List Nat} {z : Nat} :
    z ∈ sortKeyed keys xs ↔ z ∈ xs := by
  unfold sortKeyed
  rw [foldl_insKeyed_mem]
  simp

lemma length_insKeyed (keys : Array Int) (x : Nat) (l : List Nat) :
    (insKeyed keys x l).length = l.length + 1 := by
  induction l with
  | nil => rfl
  | cons y ys ih =>
    unfold insKeyed
    split
    · rfl
    · simp [ih]

lemma length_sortKeyed (keys : Array Int) (xs : List Nat) :
    (sortKeyed keys xs).length = xs.length := by
  have haux : ∀ (ys acc : List Nat),
      (ys.foldl (fun a x => insKeyed keys x a) acc).length = acc.length + ys.length := by
    intro ys
    induction ys with
    | nil => simp
    | cons x ys ih =>
      intro acc
      rw [List.foldl_cons, ih, length_insKeyed]
      simp only [List.length_cons]
      omega
  simpa using haux xs []

/-- On the identity order array the segment read of the full range is just
`List.range`. -/
lemma segRead_range (n : Nat) (h : 1 ≤ n) :
    segRead (Array.range n) 0 (n - 1) = List.range n := by
  unfold segRead
  have h1 : n - 1 + 1 - 0 = n := by omega
  rw [h1]
  conv_rhs => rw [← List.map_id (List.range n)]
  apply List.map_congr_left
  intro a ha
  have han : a < n := List.mem_range.mp ha
  simp [Array.getD, Array.size_range, han, Array.getElem_range]

/-- Writing a full-length block at slot 0 replaces the whole array. -/
lemma segWrite_full (t : Array Nat) (xs : List Nat) (h : t.size = xs.length) :
    segWrite t 0 xs = xs.toArray := by
  unfold segWrite
  have hlen : t.toList.length = xs.length := by simpa using h
  rw [List.take_zero, List.nil_append, Nat.zero_add,
    List.drop_eq_nil_of_le (by omega), List.append_nil]

/-- For at most 16 keys the introsort never partitions: `np.argsort` is the
stable keyed insertion sort of the positions. -/
lemma npyArgsort_small (keys : Array Int) (h : keys.size ≤ 16) :
    npyArgsort keys = (sortKeyed keys (List.range keys.size)).toArray := by
  unfold npyArgsort
  by_cases h0 : keys.size = 0
  · rw [if_pos h0, h0]
    rfl
  · rw [if_neg h0]
    rw [show 2 * keys.size + 64 = (2 * keys.size + 63) + 1 from rfl]
    rw [aquicksortMain]
    rw [if_neg (by omega)]
    unfold insertionSortRange
    rw [segRead_range keys.size (by omega), segWrite_full]
    rw [Array.size_range, length_sortKeyed, List.length_range]

/-- When every position is in bounds, indexing by `filterMap` is a plain
`map` with a default that is never used. -/
lemma filterMap_getElem_eq_map {α : Type} (l : List α) (d : α) :
    ∀ is : List Nat, (∀ i ∈ is, i < l.length) →
      (is.filterMap fun i => l[i]?) = is.map fun i => l.getD i d := by
  intro is
  induction is with
  | nil => intro _; rfl
  | cons i is ih =>
    intro h
    have hi : i < l.length := h i (List.mem_cons_self _ _)
    rw [List.map_cons, List.filterMap_cons_some (List.getElem?_eq_getElem hi),
      ih fun j hj => h j (List.mem_cons_of_mem _ hj)]
    congr 1
    rw [List.getD_eq_getElem?_getD, List.getElem?_eq_getElem hi]
    rfl

/-- Sorting a frame of at most 16 rows with `sort_values`: reorder the rows by the
keyed insertion sort of the positions. -/
lemma sortValues_small (df : DataFrame) (col : String) (h : df.rows.length ≤ 16) :
    (sortValues df col).rows =
      (sortKeyed ((df.rows.map fun r => keyOf (rowGet r.2 col)).toArray)
        (List.range df.rows.length)).map fun i => df.rows.getD i (0, []) := by
  unfold sortValues
  have hsize : ((df.rows.map fun r => keyOf (rowGet r.2 col)).toArray).size
      = df.rows.length := by simp
  rw [npyArgsort_small _ (by omega), Array.toList_toArray, hsize]
  apply filterMap_getElem_eq_map
  intro i hi
  exact List.mem_range.mp (mem_sortKeyed.mp hi)

lemma keys_getD_eq {l : List (Nat × Row)} {col : String} {i : Nat} (hi : i < l.length) :
    ((l.map fun r => keyOf (rowGet r.2 col)).toArray).getD i 0
      = keyOf (rowGet (l.getD i (0, ([] : Row))).2 col) := by
  have hsz : i < ((l.map fun r => keyOf (rowGet r.2 col)).toArray).size := by simpa using hi
  rw [Array.getD, dif_pos hsz, Array.get_eq_getElem, List.getElem_toArray, List.getElem_map]
  congr 1
  rw [List.getD_eq_getElem?_getD, List.getElem?_eq_getElem hi]
  rfl

lemma getD_fst_lt {l : List (Nat × Row)} (hmono : (l.map Prod.fst).Pairwise (· < ·))
    {a b : Nat} (ha : a < l.length) (hb : b < l.length) (hab : a < b) :
    (l.getD a (0, [])).1 < (l.getD b (0, [])).1 := by
  have hp := List.pairwise_iff_getElem.mp hmono a b
    (by simpa using ha) (by simpa using hb) hab
  rw [List.getElem_map, List.getElem_map] at hp
  rw [List.getD_eq_getElem?_getD, List.getElem?_eq_getElem ha,
    List.getD_eq_getElem?_getD, List.getElem?_eq_getElem hb]
  exact hp

/-! ## Sortedness of the full introsort

The refutation shows only that ties can be reordered, so the amended claim
keeps the ascending-order guarantee in full generality. The lemmas below
verify that every path of `npy_aquicksort` — the insertion sort, the
median-of-3 Hoare partitioning, and the heapsort fallback — leaves its
range of the order array ascending in the keys. -/

/-- Slot `p` read as an index. -/
lemma getD_setD (t : Array Nat) (i v p : Nat) :
    (t.setD i v).getD p 0 = if p = i ∧ i < t.size then v else t.getD p 0 := by
  by_cases hi : i < t.size
  · by_cases hpi : p = i
    · subst hpi
      show (t.setD p v).getD p 0 = if p = p ∧ p < t.size then v else t.getD p 0
      rw [if_pos ⟨rfl, hi⟩]
      unfold Array.setD
      rw [dif_pos hi]
      unfold Array.getD
      rw [dif_pos (by simpa using hi), Array.get_eq_getElem, Array.getElem_set]
      simp
    · rw [if_neg (by tauto)]
      unfold Array.setD
      rw [dif_pos hi]
      by_cases hp : p < t.size
      · unfold Array.getD
        rw [dif_pos (by simpa using hp), dif_pos hp,
          Array.get_eq_getElem, Array.get_eq_getElem, Array.getElem_set]
        rw [if_neg (by simpa using fun h => hpi h.symm)]
      · unfold Array.getD
        rw [dif_neg (by simpa using hp), dif_neg hp]
  · unfold Array.setD
    rw [dif_neg hi, if_neg (by tauto)]

lemma size_aswap (t : Array Nat) (i j : Nat) : (aswap t i j).size = t.size := by
  unfold aswap
  simp

lemma getD_aswap (t : Array Nat) (i j p : Nat) (hi : i < t.size) (hj : j < t.size) :
    (aswap t i j).getD p 0 =
      if p = j then t.getD i 0 else if p = i then t.getD j 0 else t.getD p 0 := by
  unfold aswap
  rw [getD_setD, getD_setD]
  simp only [Array.size_setD]
  by_cases hpj : p = j
  · simp [hpj, hj]
  · by_cases hpi : p = i
    · have hij : ¬ i = j := fun h => hpj (hpi.trans h)
      simp [hpj, hpi, hi, hij]
    · simp [hpj, hpi, hi]

/-- Ascending keys over the inclusive slot range `[lo, hi]`. -/
def sortedRange (keys : Array Int) (t : Array Nat) (lo hi : Nat) : Prop :=
  ∀ p q, lo ≤ p → p ≤ q → q ≤ hi → vAt keys t p ≤ vAt keys t q

/-- Slots outside the inclusive range `[lo, hi]` are untouched. -/
def unchangedOutside (t t' : Array Nat) (lo hi : Nat) : Prop :=
  ∀ q, q < lo ∨ hi < q → t'.getD q 0 = t.getD q 0

/-- Every slot of the new range holds a value the old range held. -/
def segValsFrom (t t' : Array Nat) (lo hi : Nat) : Prop :=
  ∀ p, lo ≤ p → p ≤ hi → ∃ k, lo ≤ k ∧ k ≤ hi ∧ t'.getD p 0 = t.getD k 0

lemma segValsFrom_refl (t : Array Nat) (lo hi : Nat) : segValsFrom t t lo hi :=
  fun p h1 h2 => ⟨p, h1, h2, rfl⟩

/-- Composition: an inner stage on a subrange extends the outer stage. -/
lemma segValsFrom_step {t t1 t2 : Array Nat} {lo hi lo2 hi2 : Nat}
    (h1 : segValsFrom t t1 lo hi) (hsub : lo ≤ lo2 ∧ hi2 ≤ hi)
    (hout : unchangedOutside t1 t2 lo2 hi2) (h2 : segValsFrom t1 t2 lo2 hi2) :
    segValsFrom t t2 lo hi := by
  intro p hp1 hp2
  by_cases hpin : lo2 ≤ p ∧ p ≤ hi2
  · obtain ⟨k, hk1, hk2, hk⟩ := h2 p hpin.1 hpin.2
    obtain ⟨k', h1', h2', hk'⟩ := h1 k (le_trans hsub.1 hk1) (le_trans hk2 hsub.2)
    exact ⟨k', h1', h2', by rw [hk, hk']⟩
  · have : p < lo2 ∨ hi2 < p := by omega
    obtain ⟨k', h1', h2', hk'⟩ := h1 p hp1 hp2
    exact ⟨k', h1', h2', by rw [hout p this, hk']⟩

/-- Bounds on the keys of a range survive any in-range value shuffling. -/
lemma segValsFrom_bound {keys : Array Int} {t t' : Array Nat} {lo hi : Nat}
    (P : Int → Prop) (hb : ∀ k, lo ≤ k → k ≤ hi → P (vAt keys t k))
    (hs : segValsFrom t t' lo hi) :
    ∀ p, lo ≤ p → p ≤ hi → P (vAt keys t' p) := by
  intro p h1 h2
  obtain ⟨k, hk1, hk2, hk⟩ := hs p h1 h2
  have : vAt keys t' p = vAt keys t k := by unfold vAt; rw [hk]
  rw [this]
  exact hb k hk1 hk2

/-- The bundled range-sorting contract every `npy_aquicksort` path meets. -/
def sortSpec (keys : Array Int) (t t' : Array Nat) (lo hi : Nat) : Prop :=
  t'.size = t.size ∧ unchangedOutside t t' lo hi ∧ segValsFrom t t' lo hi ∧
    sortedRange keys t' lo hi

/-! ### The insertion-sort path -/

/-- Keyed insertion keeps a list non-decreasing in the keys. -/
lemma pairwise_le_insKeyed {keys : Array Int} {x : Nat} {l : List Nat}
    (hl : l.Pairwise (fun a b => keys.getD a 0 ≤ keys.getD b 0)) :
    (insKeyed keys x l).Pairwise (fun a b => keys.getD a 0 ≤ keys.getD b 0) := by
  induction l with
  | nil => simp [insKeyed]
  | cons y ys ih =>
    rw [List.pairwise_cons] at hl
    unfold insKeyed
    split
    · rename_i hxy
      refine List.Pairwise.cons ?_ (List.Pairwise.cons hl.1 hl.2)
      intro z hz
      rcases List.mem_cons.mp hz with rfl | hz'
      · exact le_of_lt hxy
      · exact le_trans (le_of_lt hxy) (hl.1 z hz')
    · rename_i hxy
      refine List.Pairwise.cons ?_ (ih hl.2)
      intro z hz
      rcases mem_insKeyed.mp hz with rfl | hz'
      · exact not_lt.mp hxy
      · exact hl.1 z hz'

/-- The keyed insertion sort emits a list non-decreasing in the keys, for
any input. -/
lemma pairwise_le_sortKeyed (keys : Array Int) (xs : List Nat) :
    (sortKeyed keys xs).Pairwise (fun a b => keys.getD a 0 ≤ keys.getD b 0) := by
  have haux : ∀ (ys acc : List Nat),
      acc.Pairwise (fun a b => keys.getD a 0 ≤ keys.getD b 0) →
      (ys.foldl (fun a x => insKeyed keys x a) acc).Pairwise
        (fun a b => keys.getD a 0 ≤ keys.getD b 0) := by
    intro ys
    induction ys with
    | nil => intro acc h; simpa using h
    | cons x ys ih =>
      intro acc hacc
      rw [List.foldl_cons]
      exact ih _ (pairwise_le_insKeyed hacc)
  exact haux xs [] List.Pairwise.nil

lemma length_segRead (t : Array Nat) (lo hi : Nat) :
    (segRead t lo hi).length = hi + 1 - lo := by
  simp [segRead]

lemma getD_segRead (t : Array Nat) (lo hi j : Nat) (hj : j < hi + 1 - lo) :
    (segRead t lo hi).getD j 0 = t.getD (lo + j) 0 := by
  unfold segRead
  rw [List.getD_eq_getElem?_getD,
    List.getElem?_eq_getElem (by simpa using hj), List.getElem_map]
  simp

lemma mem_segRead {t : Array Nat} {lo hi x : Nat} (hx : x ∈ segRead t lo hi) :
    ∃ k, lo ≤ k ∧ k ≤ hi ∧ x = t.getD k 0 := by
  unfold segRead at hx
  obtain ⟨j, hj, he⟩ := List.mem_map.mp hx
  have hj' : j < hi + 1 - lo := List.mem_range.mp hj
  exact ⟨lo + j, by omega, by omega, he.symm⟩

lemma size_segWrite (t : Array Nat) (lo : Nat) (xs : List Nat)
    (h : lo + xs.length ≤ t.size) : (segWrite t lo xs).size = t.size := by
  unfold segWrite
  have hlen : t.toList.length = t.size := Array.length_toList
  simp only [Array.size_toArray, List.length_append, List.length_take, List.length_drop]
  omega

/-- Reading from an array built out of a list. -/
lemma arr_getD_toArray (l : List Nat) (q : Nat) : (l.toArray).getD q 0 = l.getD q 0 := by
  unfold Array.getD
  by_cases h : q < l.length
  · rw [dif_pos (by simpa using h), Array.get_eq_getElem, List.getElem_toArray,
      List.getD_eq_getElem?_getD, List.getElem?_eq_getElem h]
    rfl
  · rw [dif_neg (by simpa using h), List.getD_eq_getElem?_getD,
      List.getElem?_eq_none (by omega)]
    rfl

lemma arr_getD_toList (t : Array Nat) (q : Nat) : t.getD q 0 = t.toList.getD q 0 := by
  conv_lhs => rw [← List.toArray_toList t]
  rw [arr_getD_toArray]

lemma getD_segWrite (t : Array Nat) (lo : Nat) (xs : List Nat)
    (h : lo + xs.length ≤ t.size) (q : Nat) :
    (segWrite t lo xs).getD q 0 =
      if q < lo then t.getD q 0
      else if q < lo + xs.length then xs.getD (q - lo) 0
      else t.getD q 0 := by
  have hlen : t.toList.length = t.size := Array.length_toList
  have htake : (t.toList.take lo).length = lo := by
    rw [List.length_take]
    omega
  unfold segWrite
  rw [arr_getD_toArray, arr_getD_toList, List.getD_eq_getElem?_getD,
    List.getD_eq_getElem?_getD]
  by_cases h1 : q < lo
  · rw [if_pos h1, List.getElem?_append_left (by simp only [List.length_append]; omega),
      List.getElem?_append_left (by omega), List.getElem?_take_of_lt h1]
  · rw [if_neg h1]
    by_cases h2 : q < lo + xs.length
    · rw [if_pos h2, List.getElem?_append_left (by simp only [List.length_append]; omega),
        List.getElem?_append_right (by omega), htake, List.getD_eq_getElem?_getD]
    · rw [if_neg h2,
        List.getElem?_append_right (by simp only [List.length_append]; omega),
        List.getElem?_drop]
      congr 2
      simp only [List.length_append, htake]
      omega

/-- The insertion-sort path meets the range-sorting contract. -/
lemma insertionSortRange_spec (keys : Array Int) (t : Array Nat) (lo hi : Nat)
    (hsize : hi < t.size) :
    sortSpec keys t (insertionSortRange keys t lo hi) lo hi := by
  unfold insertionSortRange
  by_cases hlohi : lo ≤ hi
  · have hxlen : (sortKeyed keys (segRead t lo hi)).length = hi + 1 - lo := by
      rw [length_sortKeyed, length_segRead]
    have hbound : lo + (sortKeyed keys (segRead t lo hi)).length ≤ t.size := by
      rw [hxlen]
      omega
    refine ⟨size_segWrite _ _ _ hbound, ?_, ?_, ?_⟩
    · intro q hq
      rw [getD_segWrite _ _ _ hbound]
      rcases hq with hq | hq
      · rw [if_pos hq]
      · rw [if_neg (by omega), if_neg (by omega)]
    · intro p hp1 hp2
      rw [getD_segWrite _ _ _ hbound, if_neg (by omega), if_pos (by omega)]
      have hidx : p - lo < (sortKeyed keys (segRead t lo hi)).length := by omega
      have hmem : (sortKeyed keys (segRead t lo hi)).getD (p - lo) 0
          ∈ sortKeyed keys (segRead t lo hi) := by
        rw [List.getD_eq_getElem?_getD, List.getElem?_eq_getElem hidx]
        exact List.getElem_mem hidx
      obtain ⟨k, hk1, hk2, hk⟩ := mem_segRead (mem_sortKeyed.mp hmem)
      exact ⟨k, hk1, hk2, by rw [← hk]⟩
    · intro p q hp hpq hq
      unfold vAt
      rw [getD_segWrite _ _ _ hbound, getD_segWrite _ _ _ hbound,
        if_neg (by omega), if_pos (by omega), if_neg (by omega), if_pos (by omega)]
      rcases Nat.lt_or_ge (p - lo) (q - lo) with hlt | hge
      · have hql : q - lo < (sortKeyed keys (segRead t lo hi)).length := by omega
        have hpl : p - lo < (sortKeyed keys (segRead t lo hi)).length := by omega
        have hpw := List.pairwise_iff_getElem.mp (pairwise_le_sortKeyed keys (segRead t lo hi))
          (p - lo) (q - lo) hpl hql hlt
        rw [List.getD_eq_getElem?_getD, List.getElem?_eq_getElem hpl,
          List.getD_eq_getElem?_getD, List.getElem?_eq_getElem hql]
        exact hpw
      · have : p - lo = q - lo := by omega
        rw [this]
  · have hempty : segRead t lo hi = [] := by
      have hlen := length_segRead t lo hi
      have h0 : (segRead t lo hi).length = 0 := by omega
      exact List.length_eq_zero.mp h0
    have hid : segWrite t lo (sortKeyed keys (segRead t lo hi)) = t := by
      rw [hempty]
      show (t.toList.take lo ++ [] ++ t.toList.drop (lo + 0)).toArray = t
      rw [List.append_nil, Nat.add_zero, List.take_append_drop, List.toArray_toList]
    refine ⟨by rw [hid], ?_, ?_, ?_⟩
    · intro q _
      rw [hid]
    · rw [hid]
      exact segValsFrom_refl t lo hi
    · intro p q hp hpq hq
      omega

/-- What the upward scan guarantees: it advances, everything it walked over
is below the pivot, it stops on a slot not below the pivot unless it hit
the bound, and it respects the bound. -/
lemma scanUp_spec (keys : Array Int) (t : Array Nat) (vp : Int) (hi : Nat) :
    ∀ fuel pi, hi ≤ fuel + pi + 1 →
      pi < scanUp keys fuel t vp pi hi ∧
      (∀ k, pi < k → k < scanUp keys fuel t vp pi hi → vAt keys t k < vp) ∧
      (scanUp keys fuel t vp pi hi < hi → ¬ vAt keys t (scanUp keys fuel t vp pi hi) < vp) ∧
      (pi + 1 ≤ hi → scanUp keys fuel t vp pi hi ≤ hi) := by
  intro fuel
  induction fuel with
  | zero =>
    intro pi hf
    have h0 : scanUp keys 0 t vp pi hi = pi + 1 := rfl
    rw [h0]
    exact ⟨by omega, fun k h1 h2 => by omega, fun h => absurd h (by omega), fun _ => by omega⟩
  | succ fuel ih =>
    intro pi hf
    show _ ∧ _ ∧ _ ∧ _
    unfold scanUp
    by_cases hc : pi + 1 < hi ∧ vAt keys t (pi + 1) < vp
    · rw [if_pos hc]
      obtain ⟨h1, h2, h3, h4⟩ := ih (pi + 1) (by omega)
      refine ⟨by omega, ?_, h3, fun _ => h4 (by omega)⟩
      intro k hk1 hk2
      rcases Nat.eq_or_lt_of_le hk1 with hk | hk
      · rw [← hk]
        exact hc.2
      · exact h2 k hk hk2
    · rw [if_neg hc]
      refine ⟨by omega, fun k h1 h2 => by omega, ?_, fun _ => by omega⟩
      intro hlt hval
      exact hc ⟨hlt, hval⟩

/-- What the downward scan guarantees, mirror-image of `scanUp_spec`. -/
lemma scanDown_spec (keys : Array Int) (t : Array Nat) (vp : Int) (lo : Nat) :
    ∀ fuel pj, pj ≤ fuel + lo + 1 →
      scanDown keys fuel t vp pj lo ≤ pj - 1 ∧
      (∀ k, scanDown keys fuel t vp pj lo < k → k < pj → vp < vAt keys t k) ∧
      (lo < scanDown keys fuel t vp pj lo → ¬ vp < vAt keys t (scanDown keys fuel t vp pj lo)) ∧
      (lo ≤ pj - 1 → lo ≤ scanDown keys fuel t vp pj lo) := by
  intro fuel
  induction fuel with
  | zero =>
    intro pj hf
    have h0 : scanDown keys 0 t vp pj lo = pj - 1 := rfl
    rw [h0]
    exact ⟨le_refl _, fun k h1 h2 => by omega, fun h => absurd h (by omega), fun h => h⟩
  | succ fuel ih =>
    intro pj hf
    show _ ∧ _ ∧ _ ∧ _
    unfold scanDown
    by_cases hc : lo < pj - 1 ∧ vp < vAt keys t (pj - 1)
    · rw [if_pos hc]
      obtain ⟨h1, h2, h3, h4⟩ := ih (pj - 1) (by omega)
      refine ⟨by omega, ?_, h3, fun _ => h4 (by omega)⟩
      intro k hk1 hk2
      rcases Nat.lt_or_ge k (pj - 1) with hk | hk
      · exact h2 k hk1 hk
      · have : k = pj - 1 := by omega
        rw [this]
        exact hc.2
    · rw [if_neg hc]
      refine ⟨le_refl _, fun k h1 h2 => by omega, ?_, fun h => h⟩
      intro hlt hval
      exact hc ⟨hlt, hval⟩

/-! ### The partition path -/

lemma vAt_aswap (keys : Array Int) (t : Array Nat) (i j p : Nat)
    (hi : i < t.size) (hj : j < t.size) :
    vAt keys (aswap t i j) p =
      if p = j then vAt keys t i else if p = i then vAt keys t j else vAt keys t p := by
  unfold vAt
  rw [getD_aswap t i j p hi hj]
  split_ifs <;> rfl

lemma segValsFrom_aswap (t : Array Nat) {i j lo hi : Nat}
    (hi1 : lo ≤ i) (hi2 : i ≤ hi) (hj1 : lo ≤ j) (hj2 : j ≤ hi)
    (hsi : i < t.size) (hsj : j < t.size) :
    segValsFrom t (aswap t i j) lo hi := by
  intro p hp1 hp2
  rw [getD_aswap t i j p hsi hsj]
  by_cases hpj : p = j
  · rw [if_pos hpj]
    exact ⟨i, hi1, hi2, rfl⟩
  · rw [if_neg hpj]
    by_cases hpi : p = i
    · rw [if_pos hpi]
      exact ⟨j, hj1, hj2, rfl⟩
    · rw [if_neg hpi]
      exact ⟨p, hp1, hp2, rfl⟩

/-- The exchange-loop invariant of the Hoare partition: slots up to `pi`
are at most the pivot key, slots from `pj` up to `hi - 1` are at least the
pivot key, and the pivot copy sits at `hi - 1`. On exit the crossing point
separates the range. -/
lemma hoareLoop_spec (keys : Array Int) (vp : Int) (lo hi : Nat) :
    ∀ fuel (t : Array Nat) (pi pj : Nat),
      hi < t.size →
      pj ≤ fuel + lo →
      lo ≤ pi → pi + 2 ≤ hi →
      lo + 1 ≤ pj → pj + 1 ≤ hi →
      (∀ k, lo ≤ k → k ≤ pi → vAt keys t k ≤ vp) →
      (∀ k, pj ≤ k → k + 1 ≤ hi → vp ≤ vAt keys t k) →
      vAt keys t (hi - 1) = vp →
      (hoareLoop keys fuel t vp pi pj lo hi).1.size = t.size ∧
      (∀ q, q < lo + 1 ∨ hi - 2 < q →
        (hoareLoop keys fuel t vp pi pj lo hi).1.getD q 0 = t.getD q 0) ∧
      segValsFrom t (hoareLoop keys fuel t vp pi pj lo hi).1 lo hi ∧
      (lo + 1 ≤ (hoareLoop keys fuel t vp pi pj lo hi).2 ∧
        (hoareLoop keys fuel t vp pi pj lo hi).2 + 1 ≤ hi) ∧
      (∀ k, lo ≤ k → k < (hoareLoop keys fuel t vp pi pj lo hi).2 →
        vAt keys (hoareLoop keys fuel t vp pi pj lo hi).1 k ≤ vp) ∧
      (∀ k, (hoareLoop keys fuel t vp pi pj lo hi).2 ≤ k → k + 1 ≤ hi →
        vp ≤ vAt keys (hoareLoop keys fuel t vp pi pj lo hi).1 k) := by
  intro fuel
  induction fuel with
  | zero =>
    intro t pi pj hsize hfuel hpi1 hpi2 hpj1 hpj2 hle hge hpiv
    omega
  | succ fuel ih =>
    intro t pi pj hsize hfuel hpi1 hpi2 hpj1 hpj2 hle hge hpiv
    obtain ⟨hS1, hS2, hS3, hS4⟩ := scanUp_spec keys t vp hi hi pi (by omega)
    obtain ⟨hT1, hT2, hT3, hT4⟩ := scanDown_spec keys t vp lo pj pj (by omega)
    set pi' := scanUp keys hi t vp pi hi with hpi'
    set pj' := scanDown keys pj t vp pj lo with hpj'
    have hpi'le : pi' ≤ hi - 1 := by
      by_contra hcon
      have hpi'hi : pi' = hi := by
        have := hS4 (by omega)
        omega
      have := hS2 (hi - 1) (by omega) (by omega)
      rw [hpiv] at this
      exact absurd this (lt_irrefl vp)
    have hpj'le : pj' ≤ pj - 1 := hT1
    have hpj'ge : lo ≤ pj' := hT4 (by omega)
    show (hoareLoop keys (fuel + 1) t vp pi pj lo hi).1.size = t.size ∧ _
    unfold hoareLoop
    rw [← hpi', ← hpj']
    by_cases hcross : pi' ≥ pj'
    · rw [if_pos hcross]
      refine ⟨rfl, fun q _ => rfl, segValsFrom_refl t lo hi, ⟨by omega, by omega⟩, ?_, ?_⟩
      · intro k hk1 hk2
        rcases Nat.lt_or_ge pi k with hk | hk
        · exact le_of_lt (hS2 k hk hk2)
        · exact hle k hk1 hk
      · intro k hk1 hk2
        rcases Nat.eq_or_lt_of_le hk1 with hk | hk
        · rw [← hk]
          exact not_lt.mp (hS3 (by omega))
        · rcases Nat.lt_or_ge k pj with hkj | hkj
          · exact le_of_lt (hT2 k (by omega) hkj)
          · exact hge k hkj hk2
    · rw [if_neg hcross]
      have hcross' : pi' < pj' := by omega
      have hsi' : pi' < t.size := by omega
      have hsj' : pj' < t.size := by omega
      have hle' : ∀ k, lo ≤ k → k ≤ pi' → vAt keys (aswap t pi' pj') k ≤ vp := by
        intro k hk1 hk2
        rw [vAt_aswap keys t pi' pj' k hsi' hsj']
        rw [if_neg (by omega)]
        by_cases hk : k = pi'
        · rw [if_pos hk]
          exact not_lt.mp (hT3 (by omega))
        · rw [if_neg hk]
          rcases Nat.lt_or_ge pi k with hkk | hkk
          · exact le_of_lt (hS2 k hkk (by omega))
          · exact hle k hk1 hkk
      have hge' : ∀ k, pj' ≤ k → k + 1 ≤ hi → vp ≤ vAt keys (aswap t pi' pj') k := by
        intro k hk1 hk2
        rw [vAt_aswap keys t pi' pj' k hsi' hsj']
        by_cases hk : k = pj'
        · rw [if_pos hk]
          exact not_lt.mp (hS3 (by omega))
        · rw [if_neg hk, if_neg (by omega)]
          rcases Nat.lt_or_ge k pj with hkj | hkj
          · exact le_of_lt (hT2 k (by omega) hkj)
          · exact hge k hkj hk2
      have hpiv' : vAt keys (aswap t pi' pj') (hi - 1) = vp := by
        rw [vAt_aswap keys t pi' pj' (hi - 1) hsi' hsj',
          if_neg (by omega), if_neg (by omega)]
        exact hpiv
      obtain ⟨iC1, iC2, iC3, iC4, iC5, iC6⟩ :=
        ih (aswap t pi' pj') pi' pj' (by rw [size_aswap]; omega) (by omega)
          (by omega) (by omega) (by omega) (by omega) hle' hge' hpiv'
      refine ⟨by rw [iC1, size_aswap], ?_, ?_, iC4, iC5, iC6⟩
      · intro q hq
        rw [iC2 q hq, getD_aswap t pi' pj' q hsi' hsj',
          if_neg (by omega), if_neg (by omega)]
      · exact segValsFrom_step
          (segValsFrom_aswap t (by omega) (by omega) (by omega) (by omega) hsi' hsj')
          ⟨le_refl lo, le_refl hi⟩
          (fun q hq => iC2 q (by omega)) iC3

lemma segValsFrom_trans {t1 t2 t3 : Array Nat} {lo hi : Nat}
    (h12 : segValsFrom t1 t2 lo hi) (h23 : segValsFrom t2 t3 lo hi) :
    segValsFrom t1 t3 lo hi := by
  intro p h1 h2
  obtain ⟨k, k1, k2, hk⟩ := h23 p h1 h2
  obtain ⟨k', k1', k2', hk'⟩ := h12 k k1 k2
  exact ⟨k', k1', k2', by rw [hk, hk']⟩

/-- One `if LT(v[*x], v[*y]) SWAP(*x, *y)` step of the median-of-3 code:
afterwards slot `y` is at most slot `x`, other slots are untouched, and the
two slots hold the same two values. -/
lemma condSwap_spec (keys : Array Int) (t : Array Nat) (x y : Nat)
    (hx : x < t.size) (hy : y < t.size) (hxy : x ≠ y) :
    (if vAt keys t x < vAt keys t y then aswap t x y else t).size = t.size ∧
    (∀ q, q ≠ x → q ≠ y →
      (if vAt keys t x < vAt keys t y then aswap t x y else t).getD q 0 = t.getD q 0) ∧
    vAt keys (if vAt keys t x < vAt keys t y then aswap t x y else t) y ≤
      vAt keys (if vAt keys t x < vAt keys t y then aswap t x y else t) x ∧
    (((if vAt keys t x < vAt keys t y then aswap t x y else t).getD x 0 = t.getD x 0 ∧
      (if vAt keys t x < vAt keys t y then aswap t x y else t).getD y 0 = t.getD y 0) ∨
     ((if vAt keys t x < vAt keys t y then aswap t x y else t).getD x 0 = t.getD y 0 ∧
      (if vAt keys t x < vAt keys t y then aswap t x y else t).getD y 0 = t.getD x 0)) := by
  by_cases h : vAt keys t x < vAt keys t y
  · rw [if_pos h]
    refine ⟨size_aswap t x y, ?_, ?_, Or.inr ?_⟩
    · intro q hqx hqy
      rw [getD_aswap t x y q hx hy, if_neg hqy, if_neg hqx]
    · rw [vAt_aswap keys t x y y hx hy, vAt_aswap keys t x y x hx hy,
        if_pos rfl, if_neg hxy, if_pos rfl]
      exact le_of_lt h
    · constructor
      · rw [getD_aswap t x y x hx hy, if_neg hxy, if_pos rfl]
      · rw [getD_aswap t x y y hx hy, if_pos rfl]
  · rw [if_neg h]
    exact ⟨rfl, fun q _ _ => rfl, not_lt.mp h, Or.inl ⟨rfl, rfl⟩⟩

/-- The median-of-3 preamble orders the keys at `lo`, `pm`, `hi`, touching
only those three slots and only permuting their contents. -/
lemma med3_spec (keys : Array Int) (t : Array Nat) (lo hi : Nat)
    (hsize : hi < t.size) (hrange : lo + 16 ≤ hi) :
    (med3 keys t lo hi).size = t.size ∧
    (∀ q, q ≠ lo → q ≠ lo + (hi - lo) / 2 → q ≠ hi →
      (med3 keys t lo hi).getD q 0 = t.getD q 0) ∧
    segValsFrom t (med3 keys t lo hi) lo hi ∧
    vAt keys (med3 keys t lo hi) lo ≤ vAt keys (med3 keys t lo hi) (lo + (hi - lo) / 2) ∧
    vAt keys (med3 keys t lo hi) (lo + (hi - lo) / 2) ≤ vAt keys (med3 keys t lo hi) hi := by
  have hpm1 : lo < lo + (hi - lo) / 2 := by omega
  have hpm2 : lo + (hi - lo) / 2 < hi := by omega
  set pm := lo + (hi - lo) / 2 with hpmdef
  obtain ⟨a1, a2, a3, a4⟩ := condSwap_spec keys t pm lo (by omega) (by omega) (by omega)
  set t1 := if vAt keys t pm < vAt keys t lo then aswap t pm lo else t with ht1
  have hs1 : t1.size = t.size := a1
  obtain ⟨b1, b2, b3, b4⟩ := condSwap_spec keys t1 hi pm (by omega) (by omega) (by omega)
  set t2 := if vAt keys t1 hi < vAt keys t1 pm then aswap t1 hi pm else t1 with ht2
  have hs2 : t2.size = t.size := by rw [b1, hs1]
  obtain ⟨c1, c2, c3, c4⟩ := condSwap_spec keys t2 pm lo (by omega) (by omega) (by omega)
  set t3 := if vAt keys t2 pm < vAt keys t2 lo then aswap t2 pm lo else t2 with ht3
  have hmed : med3 keys t lo hi = t3 := rfl
  rw [hmed]
  have hvals : ∀ u w : Array Nat, ∀ q q' : Nat, u.getD q 0 = w.getD q' 0 →
      vAt keys u q = vAt keys w q' := by
    intro u w q q' h
    unfold vAt
    rw [h]
  refine ⟨by rw [c1, hs2], ?_, ?_, c3, ?_⟩
  · intro q h1 h2 h3
    rw [c2 q h2 h1, b2 q h3 h2, a2 q h2 h1]
  · -- each of the three stages only permutes values among lo, pm, hi
    have stage : ∀ (u w : Array Nat) (x y : Nat), lo ≤ x → x ≤ hi → lo ≤ y → y ≤ hi →
        (∀ q, q ≠ x → q ≠ y → w.getD q 0 = u.getD q 0) →
        ((w.getD x 0 = u.getD x 0 ∧ w.getD y 0 = u.getD y 0) ∨
         (w.getD x 0 = u.getD y 0 ∧ w.getD y 0 = u.getD x 0)) →
        segValsFrom u w lo hi := by
      intro u w x y hx1 hx2 hy1 hy2 hout hperm
      intro p hp1 hp2
      by_cases hpx : p = x
      · subst hpx
        rcases hperm with ⟨h, _⟩ | ⟨h, _⟩
        · exact ⟨p, hp1, hp2, h⟩
        · exact ⟨y, hy1, hy2, h⟩
      · by_cases hpy : p = y
        · subst hpy
          rcases hperm with ⟨_, h⟩ | ⟨_, h⟩
          · exact ⟨p, hp1, hp2, h⟩
          · exact ⟨x, hx1, hx2, h⟩
        · exact ⟨p, hp1, hp2, hout p hpx hpy⟩
    exact segValsFrom_trans
      (stage t t1 pm lo (by omega) (by omega) (by omega) (by omega) a2 a4)
      (segValsFrom_trans
        (stage t1 t2 hi pm (by omega) (by omega) (by omega) (by omega) b2 b4)
        (stage t2 t3 pm lo (by omega) (by omega) (by omega) (by omega) c2 c4))
  · -- pm ≤ hi at the end
    have hhi3 : t3.getD hi 0 = t2.getD hi 0 := c2 hi (by omega) (by omega)
    have hlo2 : t2.getD lo 0 = t1.getD lo 0 := b2 lo (by omega) (by omega)
    rcases c4 with ⟨hpm, _⟩ | ⟨hpm, hlo⟩
    · -- no final swap: pm value unchanged from t2
      have h1 : vAt keys t3 pm = vAt keys t2 pm := hvals t3 t2 pm pm hpm
      have h2 : vAt keys t3 hi = vAt keys t2 hi := hvals t3 t2 hi hi hhi3
      rw [h1, h2]
      exact b3
    · -- final swap: pm now holds t2's lo value
      have h1 : vAt keys t3 pm = vAt keys t1 lo := by
        rw [hvals t3 t2 pm lo hpm]
        exact hvals t2 t1 lo lo hlo2
      have h2 : vAt keys t3 hi = vAt keys t2 hi := hvals t3 t2 hi hi hhi3
      rw [h1, h2]
      -- t1's lo ≤ t1's pm ≤ t2's hi
      refine le_trans a3 ?_
      rcases b4 with ⟨hbhi, hbpm⟩ | ⟨hbhi, hbpm⟩
      · have h3 : vAt keys t2 pm = vAt keys t1 pm := hvals t2 t1 pm pm hbpm
        rw [← h3]
        exact b3
      · exact le_of_eq ((hvals t2 t1 hi pm hbhi).symm)

/-- Full correctness of one `npy_aquicksort` partition step: the pivot ends
strictly inside the range, keys left of it are at most the pivot key, keys
right of it at least, slots outside the range are untouched and the range
only shuffles its own values. -/
lemma partitionMed3_spec (keys : Array Int) (t : Array Nat) (lo hi : Nat)
    (hsize : hi < t.size) (hrange : lo + 16 ≤ hi) :
    (partitionMed3 keys t lo hi).1.size = t.size ∧
    lo + 1 ≤ (partitionMed3 keys t lo hi).2 ∧
    (partitionMed3 keys t lo hi).2 + 1 ≤ hi ∧
    unchangedOutside t (partitionMed3 keys t lo hi).1 lo hi ∧
    segValsFrom t (partitionMed3 keys t lo hi).1 lo hi ∧
    (∀ k, lo ≤ k → k < (partitionMed3 keys t lo hi).2 →
      vAt keys (partitionMed3 keys t lo hi).1 k ≤
        vAt keys (partitionMed3 keys t lo hi).1 (partitionMed3 keys t lo hi).2) ∧
    (∀ k, (partitionMed3 keys t lo hi).2 < k → k ≤ hi →
      vAt keys (partitionMed3 keys t lo hi).1 (partitionMed3 keys t lo hi).2 ≤
        vAt keys (partitionMed3 keys t lo hi).1 k) := by
  have hpm1 : lo < lo + (hi - lo) / 2 := by omega
  have hpm2 : lo + (hi - lo) / 2 < hi - 1 := by omega
  obtain ⟨m1, m2, m3, m4, m5⟩ := med3_spec keys t lo hi hsize hrange
  set pm := lo + (hi - lo) / 2 with hpmdef
  set t1 := med3 keys t lo hi with ht1
  set vp := vAt keys t1 pm with hvp
  have hspm : pm < t1.size := by omega
  have hsh1 : hi - 1 < t1.size := by omega
  set t2 := aswap t1 pm (hi - 1) with ht2
  have hs2 : t2.size = t.size := by rw [ht2, size_aswap, m1]
  have hv2 : ∀ p, vAt keys t2 p =
      if p = hi - 1 then vAt keys t1 pm
      else if p = pm then vAt keys t1 (hi - 1) else vAt keys t1 p :=
    fun p => vAt_aswap keys t1 pm (hi - 1) p hspm hsh1
  have hpiv2 : vAt keys t2 (hi - 1) = vp := by
    rw [hv2, if_pos rfl]
  have hlo2 : vAt keys t2 lo ≤ vp := by
    rw [hv2, if_neg (by omega), if_neg (by omega)]
    exact m4
  have hhi2 : vp ≤ vAt keys t2 hi := by
    rw [hv2, if_neg (by omega), if_neg (by omega)]
    exact m5
  obtain ⟨hC1, hC2, hC3, hC4, hC5, hC6⟩ :=
    hoareLoop_spec keys vp lo hi (hi + 1) t2 lo (hi - 1) (by omega) (by omega)
      (le_refl lo) (by omega) (by omega) (by omega)
      (fun k hk1 hk2 => by
        have : k = lo := by omega
        rw [this]
        exact hlo2)
      (fun k hk1 hk2 => by
        have : k = hi - 1 := by omega
        rw [this, hpiv2])
      hpiv2
  set r := hoareLoop keys (hi + 1) t2 vp lo (hi - 1) lo hi with hr
  have hpart : partitionMed3 keys t lo hi = (aswap r.1 r.2 (hi - 1), r.2) := rfl
  rw [hpart]
  have hsr : r.1.size = t.size := by rw [hC1, hs2]
  have hsp : r.2 < r.1.size := by omega
  have hsh : hi - 1 < r.1.size := by omega
  have hpiv3 : vAt keys r.1 (hi - 1) = vp := by
    have := hC2 (hi - 1) (by omega)
    unfold vAt
    rw [this]
    exact hpiv2
  have hvfin : ∀ p, vAt keys (aswap r.1 r.2 (hi - 1)) p =
      if p = hi - 1 then vAt keys r.1 r.2
      else if p = r.2 then vAt keys r.1 (hi - 1) else vAt keys r.1 p :=
    fun p => vAt_aswap keys r.1 r.2 (hi - 1) p hsp hsh
  have hfinp : vAt keys (aswap r.1 r.2 (hi - 1)) r.2 = vp := by
    rw [hvfin]
    by_cases hp : r.2 = hi - 1
    · rw [if_pos hp, hp]
      exact hpiv3
    · rw [if_neg hp, if_pos rfl]
      exact hpiv3
  refine ⟨by rw [size_aswap, hsr], hC4.1, hC4.2, ?_, ?_, ?_, ?_⟩
  · intro q hq
    show (aswap r.1 r.2 (hi - 1)).getD q 0 = t.getD q 0
    rw [getD_aswap r.1 r.2 (hi - 1) q hsp hsh, if_neg (by omega), if_neg (by omega)]
    rw [hC2 q (by omega)]
    rw [ht2, getD_aswap t1 pm (hi - 1) q hspm hsh1, if_neg (by omega), if_neg (by omega)]
    exact m2 q (by omega) (by omega) (by omega)
  · refine segValsFrom_trans m3 (segValsFrom_trans ?_ (segValsFrom_trans hC3 ?_))
    · exact segValsFrom_aswap t1 (by omega) (by omega) (by omega) (by omega) hspm hsh1
    · exact segValsFrom_aswap r.1 (by omega) (by omega) (by omega) (by omega) hsp hsh
  · intro k hk1 hk2
    rw [hfinp, hvfin, if_neg (by omega), if_neg (by omega)]
    exact hC5 k hk1 hk2
  · intro k hk1 hk2
    rw [hfinp, hvfin]
    by_cases hk : k = hi - 1
    · rw [if_pos hk]
      exact hC6 r.2 (le_refl _) (by omega)
    · rw [if_neg hk, if_neg (by omega)]
      by_cases hkhi : k = hi
      · subst hkhi
        have hu : r.1.getD k 0 = t2.getD k 0 := hC2 k (by omega)
        show vp ≤ vAt keys r.1 k
        unfold vAt
        rw [hu]
        exact hhi2
      · exact hC6 k (by omega) (by omega)

/-! ### The heapsort fallback

The heap lives on the 1-based view `a[k] = t[lo + k - 1]`, `k ∈ [1, m]`,
with parent `k / 2`. Throughout, `i0` is the hole the sift started from:
the sift restores the heap relation for every parent `≥ i0` and only
writes slots `a[i0..m]`. -/

lemma vAt_setD (keys : Array Int) (t : Array Nat) (s x p : Nat) :
    vAt keys (t.setD s x) p =
      if p = s ∧ s < t.size then keys.getD x 0 else vAt keys t p := by
  unfold vAt
  rw [getD_setD]
  split_ifs <;> rfl

/-- Unfolding equation of `siftDown` at positive fuel. -/
lemma siftDown_succ (keys : Array Int) (fuel : Nat) (t : Array Nat) (lo tmp i j n : Nat) :
    siftDown keys (fuel + 1) t lo tmp i j n =
      if j ≤ n then
        if keys.getD tmp 0 < vAt keys t (lo + siftChild keys t lo j n - 1) then
          siftDown keys fuel
            (t.setD (lo + i - 1) (t.getD (lo + siftChild keys t lo j n - 1) 0)) lo tmp
            (siftChild keys t lo j n) (siftChild keys t lo j n + siftChild keys t lo j n) n
        else t.setD (lo + i - 1) tmp
      else t.setD (lo + i - 1) tmp := rfl

/-- Writing the sifted value into the hole: the end of every sift path.
`hstop` says the hole's children cannot rise above the value. -/
lemma siftWrite_spec (keys : Array Int) (lo m i0 : Nat) (hi0 : 1 ≤ i0)
    (t : Array Nat) (tmp i : Nat)
    (hm : lo + m ≤ t.size) (hii0 : i0 ≤ i) (him : i ≤ m)
    (hK1 : ∀ jj, 2 ≤ jj → jj ≤ m → i0 ≤ jj / 2 → jj / 2 ≠ i →
      vAt keys t (lo + jj - 1) ≤ vAt keys t (lo + jj / 2 - 1))
    (hK2 : i ≠ i0 → i0 ≤ i / 2 ∧ keys.getD tmp 0 < vAt keys t (lo + i / 2 - 1))
    (hstop : ∀ jj, jj ≤ m → jj / 2 = i → vAt keys t (lo + jj - 1) ≤ keys.getD tmp 0) :
    ((t.setD (lo + i - 1) tmp).size = t.size) ∧
    (∀ q, q < lo + i0 - 1 ∨ lo + m ≤ q →
      (t.setD (lo + i - 1) tmp).getD q 0 = t.getD q 0) ∧
    (∀ q, 1 ≤ q → q ≤ m →
      (t.setD (lo + i - 1) tmp).getD (lo + q - 1) 0 = tmp ∨
      ∃ q', 1 ≤ q' ∧ q' ≤ m ∧
        (t.setD (lo + i - 1) tmp).getD (lo + q - 1) 0 = t.getD (lo + q' - 1) 0) ∧
    (∀ jj, 2 ≤ jj → jj ≤ m → i0 ≤ jj / 2 →
      vAt keys (t.setD (lo + i - 1) tmp) (lo + jj - 1) ≤
        vAt keys (t.setD (lo + i - 1) tmp) (lo + jj / 2 - 1)) := by
  have hslot : lo + i - 1 < t.size := by omega
  refine ⟨by simp, ?_, ?_, ?_⟩
  · intro q hq
    rw [getD_setD, if_neg (by omega)]
  · intro q h1 h2
    by_cases hqi : q = i
    · left
      rw [getD_setD, if_pos ⟨by omega, hslot⟩]
    · right
      refine ⟨q, h1, h2, ?_⟩
      rw [getD_setD, if_neg (by omega)]
  · intro jj h2 hjm hp0
    by_cases hji : jj = i
    · have hne : i ≠ i0 := by omega
      obtain ⟨hk1, hk2⟩ := hK2 hne
      rw [vAt_setD, if_pos ⟨by omega, hslot⟩, vAt_setD, if_neg (by omega)]
      have hq : jj / 2 = i / 2 := by omega
      rw [hq]
      exact le_of_lt hk2
    · by_cases hpi : jj / 2 = i
      · rw [vAt_setD, if_neg (by omega), vAt_setD, hpi, if_pos ⟨rfl, hslot⟩]
        exact hstop jj hjm hpi
      · rw [vAt_setD, if_neg (by omega), vAt_setD, if_neg (by omega)]
        exact hK1 jj h2 hjm hp0 hpi

/-- Full contract of `siftDown`: it repairs the heap relation for every
parent at or below the starting hole `i0`, writes only slots `a[i0..m]`,
and fills the range with values it already held plus the sifted value. -/
lemma siftDown_spec (keys : Array Int) (lo m i0 : Nat) (hi0 : 1 ≤ i0) :
    ∀ (fuel : Nat) (t : Array Nat) (tmp i j : Nat),
      lo + m ≤ t.size →
      i0 ≤ i → i ≤ m → j = 2 * i →
      m + 1 ≤ fuel + j →
      (∀ jj, 2 ≤ jj → jj ≤ m → i0 ≤ jj / 2 → jj / 2 ≠ i →
        vAt keys t (lo + jj - 1) ≤ vAt keys t (lo + jj / 2 - 1)) →
      (i ≠ i0 → i0 ≤ i / 2 ∧ keys.getD tmp 0 < vAt keys t (lo + i / 2 - 1) ∧
        ∀ jj, jj ≤ m → jj / 2 = i →
          vAt keys t (lo + jj - 1) ≤ vAt keys t (lo + i / 2 - 1)) →
      (siftDown keys (fuel + 1) t lo tmp i j m).size = t.size ∧
      (∀ q, q < lo + i0 - 1 ∨ lo + m ≤ q →
        (siftDown keys (fuel + 1) t lo tmp i j m).getD q 0 = t.getD q 0) ∧
      (∀ q, 1 ≤ q → q ≤ m →
        (siftDown keys (fuel + 1) t lo tmp i j m).getD (lo + q - 1) 0 = tmp ∨
        ∃ q', 1 ≤ q' ∧ q' ≤ m ∧
          (siftDown keys (fuel + 1) t lo tmp i j m).getD (lo + q - 1) 0 =
            t.getD (lo + q' - 1) 0) ∧
      (∀ jj, 2 ≤ jj → jj ≤ m → i0 ≤ jj / 2 →
        vAt keys (siftDown keys (fuel + 1) t lo tmp i j m) (lo + jj - 1) ≤
          vAt keys (siftDown keys (fuel + 1) t lo tmp i j m) (lo + jj / 2 - 1)) := by
  intro fuel
  induction fuel with
  | zero =>
    intro t tmp i j hm hii0 him hij hfj hK1 hK2
    rw [siftDown_succ, if_neg (by omega)]
    exact siftWrite_spec keys lo m i0 hi0 t tmp i hm hii0 him hK1
      (fun h => ⟨(hK2 h).1, (hK2 h).2.1⟩) (fun jj hjm hji => by omega)
  | succ fuel ih =>
    intro t tmp i j hm hii0 him hij hfj hK1 hK2
    rw [siftDown_succ]
    by_cases hjm : j ≤ m
    · rw [if_pos hjm]
      have hi1 : 1 ≤ i := by omega
      set j2 := siftChild keys t lo j m with hj2def
      have hj2cases : j2 = j ∨ (j2 = j + 1 ∧ j < m) := by
        unfold siftChild at hj2def
        rw [hj2def]
        split
        · rename_i hc
          exact Or.inr ⟨rfl, hc.1⟩
        · exact Or.inl rfl
      have hj2m : j2 ≤ m := by
        rcases hj2cases with h | h
        · omega
        · omega
      have hj2par : j2 / 2 = i := by
        rcases hj2cases with h | h <;> omega
      have hmax : ∀ jj, jj ≤ m → jj / 2 = i →
          vAt keys t (lo + jj - 1) ≤ vAt keys t (lo + j2 - 1) := by
        intro jj hjjm hjji
        have hjjv : jj = j ∨ jj = j + 1 := by omega
        rcases hjjv with hjj | hjj
        · rcases hj2cases with h | h
          · rw [hjj, h]
          · have hc : j < m ∧ vAt keys t (lo + j - 1) < vAt keys t (lo + j) := by
              by_contra hc
              unfold siftChild at hj2def
              rw [if_neg hc] at hj2def
              omega
            have heq : lo + j2 - 1 = lo + j := by omega
            rw [hjj, heq]
            exact le_of_lt hc.2
        · rcases hj2cases with h | h
          · have hjlt : j < m := by omega
            have hcfail : ¬ (j < m ∧ vAt keys t (lo + j - 1) < vAt keys t (lo + j)) := by
              intro hc
              unfold siftChild at hj2def
              rw [if_pos hc] at hj2def
              omega
            have hge : ¬ vAt keys t (lo + j - 1) < vAt keys t (lo + j) := by
              intro hlt
              exact hcfail ⟨hjlt, hlt⟩
            have heq : lo + jj - 1 = lo + j := by omega
            rw [heq, h]
            exact not_lt.mp hge
          · rw [hjj, h.1]
      by_cases hmove : keys.getD tmp 0 < vAt keys t (lo + j2 - 1)
      · rw [if_pos hmove]
        have hslot : lo + i - 1 < t.size := by omega
        set t2 := t.setD (lo + i - 1) (t.getD (lo + j2 - 1) 0) with ht2
        have hvmoved : vAt keys t2 (lo + i - 1) = vAt keys t (lo + j2 - 1) := by
          rw [ht2, vAt_setD, if_pos ⟨rfl, hslot⟩]
          rfl
        have hvun : ∀ x, 1 ≤ x → x ≠ i →
            vAt keys t2 (lo + x - 1) = vAt keys t (lo + x - 1) := by
          intro x hx1 hxi
          rw [ht2, vAt_setD, if_neg (by omega)]
        have hK1' : ∀ jj, 2 ≤ jj → jj ≤ m → i0 ≤ jj / 2 → jj / 2 ≠ j2 →
            vAt keys t2 (lo + jj - 1) ≤ vAt keys t2 (lo + jj / 2 - 1) := by
          intro jj h2 hjjm hp0 hpj2
          by_cases hpi : jj / 2 = i
          · -- children of the old hole versus the moved-up value
            have hjji : jj ≠ i := by omega
            rw [hvun jj (by omega) hjji, hpi, show lo + i - 1 = lo + i - 1 from rfl]
            have : vAt keys t2 (lo + i - 1) = vAt keys t (lo + j2 - 1) := hvmoved
            rw [this]
            exact hmax jj hjjm hpi
          · by_cases hji : jj = i
            · -- the pair (i/2, i): the slot i now holds a[j2]
              have hne : i ≠ i0 := by omega
              obtain ⟨hk1, hk2, hk3⟩ := hK2 hne
              have hL : vAt keys t2 (lo + jj - 1) = vAt keys t (lo + j2 - 1) := by
                rw [hji]
                exact hvmoved
              have hR : vAt keys t2 (lo + jj / 2 - 1) = vAt keys t (lo + i / 2 - 1) := by
                have hq : jj / 2 = i / 2 := by omega
                rw [hq]
                exact hvun (i / 2) (by omega) (by omega)
              rw [hL, hR]
              exact hk3 j2 hj2m hj2par
            · rw [hvun jj (by omega) hji, hvun (jj / 2) (by omega) hpi]
              exact hK1 jj h2 hjjm hp0 hpi
        have hK2' : j2 ≠ i0 → i0 ≤ j2 / 2 ∧ keys.getD tmp 0 < vAt keys t2 (lo + j2 / 2 - 1) ∧
            ∀ jj, jj ≤ m → jj / 2 = j2 →
              vAt keys t2 (lo + jj - 1) ≤ vAt keys t2 (lo + j2 / 2 - 1) := by
          intro _
          refine ⟨by omega, ?_, ?_⟩
          · rw [hj2par, hvmoved]
            exact hmove
          · intro jj hjjm hjj
            have hjji : jj ≠ i := by omega
            rw [hvun jj (by omega) hjji, hj2par, hvmoved]
            have := hK1 jj (by omega) hjjm (by omega) (by omega)
            rw [hjj] at this
            exact this
        obtain ⟨iS, iU, iV, iH⟩ := ih t2 tmp j2 (j2 + j2)
          (by rw [ht2]; simpa using hm) (by omega) hj2m (by omega) (by omega) hK1' hK2'
        refine ⟨by rw [iS, ht2]; simp, ?_, ?_, iH⟩
        · intro q hq
          rw [iU q hq, ht2, getD_setD, if_neg (by omega)]
        · intro q h1 h2
          rcases iV q h1 h2 with h | ⟨q', hq1, hq2, hq⟩
          · exact Or.inl h
          · right
            by_cases hqi : q' = i
            · refine ⟨j2, by omega, hj2m, ?_⟩
              rw [hq, ht2, getD_setD, if_pos ⟨by omega, hslot⟩]
            · refine ⟨q', hq1, hq2, ?_⟩
              rw [hq, ht2, getD_setD, if_neg (by omega)]
      · rw [if_neg hmove]
        exact siftWrite_spec keys lo m i0 hi0 t tmp i hm hii0 him hK1
          (fun h => ⟨(hK2 h).1, (hK2 h).2.1⟩)
          (fun jj hjm' hji => le_trans (hmax jj hjm' hji) (not_lt.mp hmove))
    · rw [if_neg hjm]
      exact siftWrite_spec keys lo m i0 hi0 t tmp i hm hii0 him hK1
        (fun h => ⟨(hK2 h).1, (hK2 h).2.1⟩) (fun jj hjm' hji => by omega)

/-- Adjacent comparisons over a range lift to full sortedness. -/
lemma sortedRange_of_adjacent (keys : Array Int) (t : Array Nat) (lo hi : Nat)
    (h : ∀ p, lo ≤ p → p < hi → vAt keys t p ≤ vAt keys t (p + 1)) :
    sortedRange keys t lo hi := by
  intro p q hp hpq hq
  revert hpq hq
  induction q with
  | zero =>
    intro hpq hq
    have hp0 : p = 0 := by omega
    rw [hp0]
  | succ q ih =>
    intro hpq hq
    by_cases hpq1 : p = q + 1
    · rw [hpq1]
    · exact le_trans (ih (by omega) (by omega)) (h q (by omega) (by omega))

/-- In a max-heap the root holds the greatest key. -/
lemma heap_root_max (keys : Array Int) (t : Array Nat) (lo n : Nat)
    (hheap : ∀ jj, 2 ≤ jj → jj ≤ n →
      vAt keys t (lo + jj - 1) ≤ vAt keys t (lo + jj / 2 - 1)) :
    ∀ k, 1 ≤ k → k ≤ n → vAt keys t (lo + k - 1) ≤ vAt keys t lo := by
  intro k
  induction k using Nat.strong_induction_on with
  | _ k ih =>
    intro h1 hn
    by_cases hk : k = 1
    · rw [hk]
      exact le_refl _
    · exact le_trans (hheap k (by omega) hn) (ih (k / 2) (by omega) (by omega) (by omega))

/-- The heapify pass establishes the max-heap relation on `a[1..n]` while
permuting only values held by the slot range. -/
lemma heapifyLoop_spec (keys : Array Int) (lo n : Nat) :
    ∀ (l : Nat) (t : Array Nat), l ≤ n → lo + n ≤ t.size →
      (∀ jj, 2 ≤ jj → jj ≤ n → l + 1 ≤ jj / 2 →
        vAt keys t (lo + jj - 1) ≤ vAt keys t (lo + jj / 2 - 1)) →
      (heapifyLoop keys t lo n l).size = t.size ∧
      (∀ q, q < lo ∨ lo + n ≤ q → (heapifyLoop keys t lo n l).getD q 0 = t.getD q 0) ∧
      (∀ q, 1 ≤ q → q ≤ n → ∃ q', 1 ≤ q' ∧ q' ≤ n ∧
        (heapifyLoop keys t lo n l).getD (lo + q - 1) 0 = t.getD (lo + q' - 1) 0) ∧
      (∀ jj, 2 ≤ jj → jj ≤ n →
        vAt keys (heapifyLoop keys t lo n l) (lo + jj - 1) ≤
          vAt keys (heapifyLoop keys t lo n l) (lo + jj / 2 - 1)) := by
  intro l
  induction l with
  | zero =>
    intro t hl hm hinv
    refine ⟨rfl, fun q hq => rfl, fun q h1 h2 => ⟨q, h1, h2, rfl⟩, ?_⟩
    intro jj h2 hn
    exact hinv jj h2 hn (by omega)
  | succ l' ih =>
    intro t hl hm hinv
    have hunf : heapifyLoop keys t lo n (l' + 1) =
        heapifyLoop keys
          (siftDown keys (n + 2) t lo (t.getD (lo + l') 0) (l' + 1) ((l' + 1) * 2) n)
          lo n l' := rfl
    rw [hunf]
    obtain ⟨sS, sU, sV, sH⟩ :=
      siftDown_spec keys lo n (l' + 1) (by omega) (n + 1) t (t.getD (lo + l') 0)
        (l' + 1) ((l' + 1) * 2) hm (le_refl _) hl (by omega) (by omega)
        (fun jj h2 hjn hp hne => hinv jj h2 hjn (by omega))
        (fun h => absurd rfl h)
    obtain ⟨iS, iU, iV, iH⟩ :=
      ih (siftDown keys (n + 2) t lo (t.getD (lo + l') 0) (l' + 1) ((l' + 1) * 2) n)
        (by omega) (by rw [sS]; exact hm) (fun jj h2 hjn hp => sH jj h2 hjn hp)
    refine ⟨iS.trans sS, ?_, ?_, iH⟩
    · intro q hq
      rw [iU q hq, sU q (by omega)]
    · intro q h1 h2
      obtain ⟨q', hq1, hq2, hq⟩ := iV q h1 h2
      rcases sV q' hq1 hq2 with h | ⟨q'', hq''1, hq''2, h⟩
      · refine ⟨l' + 1, by omega, hl, ?_⟩
        have hs : lo + (l' + 1) - 1 = lo + l' := by omega
        rw [hq, h, hs]
      · exact ⟨q'', hq''1, hq''2, by rw [hq, h]⟩

/-- The extraction pass of `npy_aheapsort`: given a max-heap on `a[1..n]`
whose tail `a[n+1..N]` is already sorted and dominates the heap, repeated
popping leaves the whole range ascending. -/
lemma heapExtract_spec (keys : Array Int) (lo N : Nat) :
    ∀ (n : Nat) (t : Array Nat), n ≤ N → lo + N ≤ t.size →
      (∀ jj, 2 ≤ jj → jj ≤ n →
        vAt keys t (lo + jj - 1) ≤ vAt keys t (lo + jj / 2 - 1)) →
      (∀ k p, 1 ≤ k → k ≤ n → n < p → p ≤ N →
        vAt keys t (lo + k - 1) ≤ vAt keys t (lo + p - 1)) →
      (∀ p, n < p → p < N → vAt keys t (lo + p - 1) ≤ vAt keys t (lo + p)) →
      (heapExtract keys t lo n).size = t.size ∧
      (∀ q, q < lo ∨ lo + N ≤ q → (heapExtract keys t lo n).getD q 0 = t.getD q 0) ∧
      (∀ q, 1 ≤ q → q ≤ N → ∃ q', 1 ≤ q' ∧ q' ≤ N ∧
        (heapExtract keys t lo n).getD (lo + q - 1) 0 = t.getD (lo + q' - 1) 0) ∧
      (∀ p, 1 ≤ p → p < N →
        vAt keys (heapExtract keys t lo n) (lo + p - 1) ≤
          vAt keys (heapExtract keys t lo n) (lo + p)) := by
  intro n
  induction n using Nat.strong_induction_on with
  | _ n ih =>
    intro t hnN hsize ha hb hc
    by_cases h0 : n = 0
    · subst h0
      refine ⟨rfl, fun q hq => rfl, fun q h1 h2 => ⟨q, h1, h2, rfl⟩, ?_⟩
      intro p h1 h2
      exact hc p (by omega) h2
    by_cases h1 : n = 1
    · subst h1
      refine ⟨rfl, fun q hq => rfl, fun q hq1 hq2 => ⟨q, hq1, hq2, rfl⟩, ?_⟩
      intro p hp1 hp2
      by_cases hp : p = 1
      · rw [hp]
        exact hb 1 2 (le_refl 1) (le_refl 1) (by omega) (by omega)
      · exact hc p (by omega) hp2
    obtain ⟨m, rfl⟩ : ∃ m, n = m + 2 := ⟨n - 2, by omega⟩
    have hslotn : lo + m + 1 < t.size := by omega
    have hroot : ∀ k, 1 ≤ k → k ≤ m + 2 → vAt keys t (lo + k - 1) ≤ vAt keys t lo :=
      heap_root_max keys t lo (m + 2) ha
    have ht1size : (t.setD (lo + m + 1) (t.getD lo 0)).size = t.size := by simp
    have hv1 : ∀ x, x ≠ lo + m + 1 →
        (t.setD (lo + m + 1) (t.getD lo 0)).getD x 0 = t.getD x 0 := by
      intro x hx
      rw [getD_setD, if_neg (by omega)]
    have hv1top : (t.setD (lo + m + 1) (t.getD lo 0)).getD (lo + m + 1) 0 = t.getD lo 0 := by
      rw [getD_setD, if_pos ⟨rfl, hslotn⟩]
    have hK1 : ∀ jj, 2 ≤ jj → jj ≤ m + 1 → 1 ≤ jj / 2 → jj / 2 ≠ 1 →
        vAt keys (t.setD (lo + m + 1) (t.getD lo 0)) (lo + jj - 1) ≤
          vAt keys (t.setD (lo + m + 1) (t.getD lo 0)) (lo + jj / 2 - 1) := by
      intro jj h2 hjm hp hne
      unfold vAt
      rw [hv1 _ (by omega), hv1 _ (by omega)]
      exact ha jj h2 (by omega)
    obtain ⟨sS, sU, sV, sH⟩ :=
      siftDown_spec keys lo (m + 1) 1 (le_refl 1) (m + 2)
        (t.setD (lo + m + 1) (t.getD lo 0)) (t.getD (lo + m + 1) 0) 1 2
        (by rw [ht1size]; omega) (le_refl 1) (by omega) (by omega) (by omega)
        hK1 (fun h => absurd rfl h)
    set t2 := siftDown keys (m + 2 + 1) (t.setD (lo + m + 1) (t.getD lo 0)) lo
      (t.getD (lo + m + 1) 0) 1 2 (m + 1) with ht2
    have hunf : heapExtract keys t lo (m + 2) = heapExtract keys t2 lo (m + 1) := rfl
    have hv2 : ∀ x, x < lo ∨ lo + m + 1 ≤ x →
        t2.getD x 0 = (t.setD (lo + m + 1) (t.getD lo 0)).getD x 0 := by
      intro x hx
      exact sU x (by omega)
    have hval2 : ∀ k, 1 ≤ k → k ≤ m + 1 →
        vAt keys t2 (lo + k - 1) ≤ vAt keys t lo := by
      intro k hk1 hk2
      rcases sV k hk1 hk2 with h | ⟨k', hk'1, hk'2, h⟩
      · unfold vAt
        rw [h]
        exact hroot (m + 2) (by omega) (le_refl _)
      · unfold vAt
        rw [h, hv1 _ (by omega)]
        exact hroot k' hk'1 (by omega)
    have hvtop2 : vAt keys t2 (lo + m + 1) = vAt keys t lo := by
      unfold vAt
      rw [hv2 _ (Or.inr (le_refl _)), hv1top]
    have hvtail2 : ∀ p, m + 2 < p → p ≤ N →
        vAt keys t2 (lo + p - 1) = vAt keys t (lo + p - 1) := by
      intro p hp1 hp2
      unfold vAt
      rw [hv2 _ (by omega), hv1 _ (by omega)]
    have hb' : ∀ k p, 1 ≤ k → k ≤ m + 1 → m + 1 < p → p ≤ N →
        vAt keys t2 (lo + k - 1) ≤ vAt keys t2 (lo + p - 1) := by
      intro k p hk1 hk2 hp1 hp2
      by_cases hp : p = m + 2
      · have e : vAt keys t2 (lo + p - 1) = vAt keys t lo := by
          rw [show lo + p - 1 = lo + m + 1 by omega]
          exact hvtop2
        rw [e]
        exact hval2 k hk1 hk2
      · rw [hvtail2 p (by omega) hp2]
        exact le_trans (hval2 k hk1 hk2) (hb 1 p (le_refl 1) (by omega) (by omega) hp2)
    have hc' : ∀ p, m + 1 < p → p < N →
        vAt keys t2 (lo + p - 1) ≤ vAt keys t2 (lo + p) := by
      intro p hp1 hp2
      by_cases hp : p = m + 2
      · have e1 : vAt keys t2 (lo + p - 1) = vAt keys t lo := by
          rw [show lo + p - 1 = lo + m + 1 by omega]
          exact hvtop2
        have e2 : vAt keys t2 (lo + p) = vAt keys t (lo + p) := by
          rw [show lo + p = lo + (p + 1) - 1 by omega]
          exact hvtail2 (p + 1) (by omega) (by omega)
        rw [e1, e2]
        exact hb 1 (p + 1) (le_refl 1) (by omega) (by omega) (by omega)
      · have e1 : vAt keys t2 (lo + p - 1) = vAt keys t (lo + p - 1) :=
          hvtail2 p (by omega) (by omega)
        have e2 : vAt keys t2 (lo + p) = vAt keys t (lo + p) := by
          rw [show lo + p = lo + (p + 1) - 1 by omega]
          exact hvtail2 (p + 1) (by omega) (by omega)
        rw [e1, e2]
        exact hc p (by omega) hp2
    have ha' : ∀ jj, 2 ≤ jj → jj ≤ m + 1 →
        vAt keys t2 (lo + jj - 1) ≤ vAt keys t2 (lo + jj / 2 - 1) := by
      intro jj h2 hjm
      exact sH jj h2 hjm (by omega)
    obtain ⟨eS, eU, eV, eP⟩ := ih (m + 1) (by omega) t2 (by omega)
      (by rw [ht2, sS, ht1size]; exact hsize) ha' hb' hc'
    rw [hunf]
    refine ⟨by rw [eS, ht2, sS, ht1size], ?_, ?_, eP⟩
    · intro q hq
      rw [eU q hq, hv2 q (by omega), hv1 q (by omega)]
    · intro q hq1 hq2
      obtain ⟨q', hp1, hp2, hq⟩ := eV q hq1 hq2
      by_cases hcase : q' ≤ m + 1
      · rcases sV q' hp1 hcase with h | ⟨q'', hq''1, hq''2, h⟩
        · refine ⟨m + 2, by omega, by omega, ?_⟩
          rw [hq, h, show lo + (m + 2) - 1 = lo + m + 1 by omega]
        · refine ⟨q'', hq''1, by omega, ?_⟩
          rw [hq, h, hv1 _ (by omega)]
      · by_cases htop : q' = m + 2
        · refine ⟨1, le_refl 1, by omega, ?_⟩
          rw [hq, show lo + q' - 1 = lo + m + 1 by omega,
            hv2 (lo + m + 1) (Or.inr (le_refl _)), hv1top,
            show lo + 1 - 1 = lo by omega]
        · refine ⟨q', hp1, hp2, ?_⟩
          rw [hq, hv2 _ (by omega), hv1 _ (by omega)]

/-- The heapsort fallback meets the full sorting contract on its range. -/
lemma aheapsortRange_spec (keys : Array Int) (t : Array Nat) (lo hi : Nat)
    (hlohi : lo ≤ hi) (hsize : hi < t.size) :
    sortSpec keys t (aheapsortRange keys t lo hi) lo hi := by
  have hsz : lo + (hi + 1 - lo) ≤ t.size := by omega
  obtain ⟨hS, hU, hV, hH⟩ :=
    heapifyLoop_spec keys lo (hi + 1 - lo) ((hi + 1 - lo) / 2) t (by omega) hsz
      (fun jj h2 hn hp => absurd hp (by omega))
  obtain ⟨eS, eU, eV, eP⟩ :=
    heapExtract_spec keys lo (hi + 1 - lo) (hi + 1 - lo)
      (heapifyLoop keys t lo (hi + 1 - lo) ((hi + 1 - lo) / 2))
      (le_refl _) (by rw [hS]; exact hsz) hH
      (fun k p hk1 hk2 hp1 hp2 => absurd hp1 (by omega))
      (fun p hp1 hp2 => absurd hp1 (by omega))
  have hunf : aheapsortRange keys t lo hi =
      heapExtract keys (heapifyLoop keys t lo (hi + 1 - lo) ((hi + 1 - lo) / 2)) lo
        (hi + 1 - lo) := rfl
  rw [hunf]
  refine ⟨by rw [eS, hS], ?_, ?_, ?_⟩
  · intro q hq
    rw [eU q (by omega), hU q (by omega)]
  · intro p h1 h2
    obtain ⟨q', hq'1, hq'2, hq'⟩ := eV (p + 1 - lo) (by omega) (by omega)
    obtain ⟨q'', hq''1, hq''2, hq''⟩ := hV q' hq'1 hq'2
    refine ⟨lo + q'' - 1, by omega, by omega, ?_⟩
    rw [show p = lo + (p + 1 - lo) - 1 by omega, hq', hq'']
  · apply sortedRange_of_adjacent
    intro x hx1 hx2
    have hstep := eP (x + 1 - lo) (by omega) (by omega)
    rw [show lo + (x + 1 - lo) - 1 = x by omega,
      show lo + (x + 1 - lo) = x + 1 by omega] at hstep
    exact hstep

/-- Pointwise equal slot ranges are sorted together. -/
lemma sortedRange_congr (keys : Array Int) (t1 t2 : Array Nat) (lo hi : Nat)
    (h : ∀ x, lo ≤ x → x ≤ hi → t2.getD x 0 = t1.getD x 0)
    (hs : sortedRange keys t1 lo hi) : sortedRange keys t2 lo hi := by
  intro x y hx hxy hy
  have e1 : vAt keys t2 x = vAt keys t1 x := by
    unfold vAt
    rw [h x hx (by omega)]
  have e2 : vAt keys t2 y = vAt keys t1 y := by
    unfold vAt
    rw [h y (by omega) hy]
  rw [e1, e2]
  exact hs x y hx hxy hy

/-- Two sorted halves separated by a pivot slot make a sorted range. -/
lemma sortedRange_glue (keys : Array Int) (t : Array Nat) (lo hi p : Nat)
    (hleft : sortedRange keys t lo (p - 1))
    (hright : sortedRange keys t (p + 1) hi)
    (hlb : ∀ k, lo ≤ k → k < p → vAt keys t k ≤ vAt keys t p)
    (hub : ∀ k, p < k → k ≤ hi → vAt keys t p ≤ vAt keys t k) :
    sortedRange keys t lo hi := by
  intro x y hx hxy hy
  by_cases hxp : x < p
  · by_cases hy1 : y < p
    · exact hleft x y hx hxy (by omega)
    · by_cases hy2 : y = p
      · rw [hy2]
        exact hlb x hx hxp
      · exact le_trans (hlb x hx hxp) (hub y (by omega) hy)
  · by_cases hx2 : x = p
    · by_cases hy2 : y = p
      · rw [hx2, hy2]
      · rw [hx2]
        exact hub y (by omega) hy
    · exact hright x y (by omega) hxy hy

/-- Composition pattern of the `npy_aquicksort` recursion: a partition step,
then in-place sorts of the two sides in either order, meets the full
contract on `[lo, hi]`. -/
lemma sortSpec_pivot_glue (keys : Array Int) (t tp t3 : Array Nat) (lo hi p : Nat)
    (hp1 : lo + 1 ≤ p) (hp2 : p + 1 ≤ hi)
    (hPsize : tp.size = t.size)
    (hPunch : unchangedOutside t tp lo hi)
    (hPvals : segValsFrom t tp lo hi)
    (hPlb : ∀ k, lo ≤ k → k < p → vAt keys tp k ≤ vAt keys tp p)
    (hPub : ∀ k, p < k → k ≤ hi → vAt keys tp p ≤ vAt keys tp k)
    (hsize3 : t3.size = tp.size)
    (hout3 : ∀ q, q < lo ∨ hi < q → t3.getD q 0 = tp.getD q 0)
    (hpiv3 : t3.getD p 0 = tp.getD p 0)
    (hvL : segValsFrom tp t3 lo (p - 1))
    (hvR : segValsFrom tp t3 (p + 1) hi)
    (hsL : sortedRange keys t3 lo (p - 1))
    (hsR : sortedRange keys t3 (p + 1) hi) :
    sortSpec keys t t3 lo hi := by
  have hpivA : vAt keys t3 p = vAt keys tp p := by
    unfold vAt
    rw [hpiv3]
  refine ⟨hsize3.trans hPsize, ?_, ?_, ?_⟩
  · intro q hq
    rw [hout3 q hq, hPunch q hq]
  · intro q h1 h2
    by_cases hq1 : q < p
    · obtain ⟨k, hk1, hk2, hk⟩ := hvL q h1 (by omega)
      obtain ⟨k', hk1', hk2', hk'⟩ := hPvals k hk1 (by omega)
      exact ⟨k', hk1', hk2', by rw [hk, hk']⟩
    by_cases hq2 : q = p
    · obtain ⟨k', hk1', hk2', hk'⟩ := hPvals p (by omega) (by omega)
      refine ⟨k', hk1', hk2', ?_⟩
      rw [hq2, hpiv3, hk']
    · obtain ⟨k, hk1, hk2, hk⟩ := hvR q (by omega) h2
      obtain ⟨k', hk1', hk2', hk'⟩ := hPvals k (by omega) hk2
      exact ⟨k', hk1', hk2', by rw [hk, hk']⟩
  · apply sortedRange_glue keys t3 lo hi p hsL hsR
    · intro k hk1 hk2
      rw [hpivA]
      exact segValsFrom_bound (fun v => v ≤ vAt keys tp p)
        (fun k' h1' h2' => hPlb k' h1' (by omega)) hvL k hk1 (by omega)
    · intro k hk1 hk2
      rw [hpivA]
      exact segValsFrom_bound (fun v => vAt keys tp p ≤ v)
        (fun k' h1' h2' => hPub k' (by omega) h2') hvR k (by omega) hk2

/-- Unfolding equation of the driver at positive fuel. -/
lemma aquicksortMain_succ (keys : Array Int) (fuel : Nat) (t : Array Nat)
    (lo hi : Nat) (depth : Int) :
    aquicksortMain keys (fuel + 1) t lo hi depth =
      if hi - lo > 15 then
        if depth ≤ 0 then (aheapsortRange keys t lo hi, depth - 1)
        else
          if (partitionMed3 keys t lo hi).2 - lo < hi - (partitionMed3 keys t lo hi).2 then
            aquicksortMain keys fuel
              (aquicksortMain keys fuel (partitionMed3 keys t lo hi).1 lo
                ((partitionMed3 keys t lo hi).2 - 1) (depth - 1)).1
              ((partitionMed3 keys t lo hi).2 + 1) hi
              (aquicksortMain keys fuel (partitionMed3 keys t lo hi).1 lo
                ((partitionMed3 keys t lo hi).2 - 1) (depth - 1)).2
          else
            aquicksortMain keys fuel
              (aquicksortMain keys fuel (partitionMed3 keys t lo hi).1
                ((partitionMed3 keys t lo hi).2 + 1) hi (depth - 1)).1
              lo ((partitionMed3 keys t lo hi).2 - 1)
              (aquicksortMain keys fuel (partitionMed3 keys t lo hi).1
                ((partitionMed3 keys t lo hi).2 + 1) hi (depth - 1)).2
      else (insertionSortRange keys t lo hi, depth) := rfl

/-- The full introsort driver sorts its range whatever path it takes —
insertion sort, partitioning in either recursion order, or the heapsort
fallback — whenever the fuel covers the range length. -/
lemma aquicksortMain_spec (keys : Array Int) :
    ∀ (fuel : Nat) (t : Array Nat) (lo hi : Nat) (depth : Int),
      hi < t.size → hi + 1 - lo ≤ fuel →
      sortSpec keys t (aquicksortMain keys fuel t lo hi depth).1 lo hi := by
  intro fuel
  induction fuel with
  | zero =>
    intro t lo hi depth hsize hfuel
    exact ⟨rfl, fun q hq => rfl,
      fun q h1 h2 => absurd h1 (by omega),
      fun x y h1 h2 h3 => absurd h1 (by omega)⟩
  | succ fuel ih =>
    intro t lo hi depth hsize hfuel
    rw [aquicksortMain_succ]
    by_cases hbig : hi - lo > 15
    · rw [if_pos hbig]
      by_cases hdep : depth ≤ 0
      · rw [if_pos hdep]
        exact aheapsortRange_spec keys t lo hi (by omega) hsize
      · rw [if_neg hdep]
        obtain ⟨P1, P2, P3, P4, P5, P6, P7⟩ :=
          partitionMed3_spec keys t lo hi hsize (by omega)
        set pr := partitionMed3 keys t lo hi with hprd
        set p := pr.2 with hpd
        by_cases hside : p - lo < hi - p
        · rw [if_pos hside]
          obtain ⟨L1, L2, L3, L4⟩ := ih pr.1 lo (p - 1) (depth - 1)
            (by rw [P1]; omega) (by omega)
          obtain ⟨R1, R2, R3, R4⟩ :=
            ih (aquicksortMain keys fuel pr.1 lo (p - 1) (depth - 1)).1 (p + 1) hi
              (aquicksortMain keys fuel pr.1 lo (p - 1) (depth - 1)).2
              (by rw [L1, P1]; exact hsize) (by omega)
          apply sortSpec_pivot_glue keys t pr.1 _ lo hi p P2 P3 P1 P4 P5 P6 P7
          · exact R1.trans L1
          · intro q hq
            rw [R2 q (by omega), L2 q (by omega)]
          · rw [R2 p (by omega), L2 p (by omega)]
          · exact segValsFrom_trans L3 (fun q h1 h2 => ⟨q, h1, h2, R2 q (by omega)⟩)
          · exact segValsFrom_trans (fun q h1 h2 => ⟨q, h1, h2, L2 q (by omega)⟩) R3
          · exact sortedRange_congr keys
              (aquicksortMain keys fuel pr.1 lo (p - 1) (depth - 1)).1 _ lo (p - 1)
              (fun x h1 h2 => R2 x (by omega)) L4
          · exact R4
        · rw [if_neg hside]
          obtain ⟨R1, R2, R3, R4⟩ := ih pr.1 (p + 1) hi (depth - 1)
            (by rw [P1]; exact hsize) (by omega)
          obtain ⟨L1, L2, L3, L4⟩ :=
            ih (aquicksortMain keys fuel pr.1 (p + 1) hi (depth - 1)).1 lo (p - 1)
              (aquicksortMain keys fuel pr.1 (p + 1) hi (depth - 1)).2
              (by rw [R1, P1]; omega) (by omega)
          apply sortSpec_pivot_glue keys t pr.1 _ lo hi p P2 P3 P1 P4 P5 P6 P7
          · exact L1.trans R1
          · intro q hq
            rw [L2 q (by omega), R2 q (by omega)]
          · rw [L2 p (by omega), R2 p (by omega)]
          · exact segValsFrom_trans (fun q h1 h2 => ⟨q, h1, h2, R2 q (by omega)⟩) L3
          · exact segValsFrom_trans R3 (fun q h1 h2 => ⟨q, h1, h2, L2 q (by omega)⟩)
          · exact L4
          · exact sortedRange_congr keys
              (aquicksortMain keys fuel pr.1 (p + 1) hi (depth - 1)).1 _ (p + 1) hi
              (fun x h1 h2 => L2 x (by omega)) R4
    · rw [if_neg hbig]
      exact insertionSortRange_spec keys t lo hi hsize

/-- Unfolding `npyArgsort` on a non-empty key array. -/
lemma npyArgsort_eq (keys : Array Int) (h : ¬ keys.size = 0) :
    npyArgsort keys =
      (aquicksortMain keys (2 * keys.size + 64) (Array.range keys.size) 0
        (keys.size - 1) (2 * (npyGetMsb keys.size : Int))).1 := by
  show (if keys.size = 0 then #[]
    else (aquicksortMain keys (2 * keys.size + 64) (Array.range keys.size) 0
      (keys.size - 1) (2 * (npyGetMsb keys.size : Int))).1) = _
  rw [if_neg h]

/-- The argsort emits the positions in ascending key order. -/
lemma npyArgsort_pairwise (keys : Array Int) :
    (npyArgsort keys).toList.Pairwise (fun a b => keys.getD a 0 ≤ keys.getD b 0) := by
  by_cases h0 : keys.size = 0
  · have he : npyArgsort keys = #[] := by
      show (if keys.size = 0 then #[] else _) = #[]
      rw [if_pos h0]
    rw [he]
    exact List.Pairwise.nil
  · rw [npyArgsort_eq keys h0]
    obtain ⟨hS, hU, hV, hP⟩ := aquicksortMain_spec keys (2 * keys.size + 64)
      (Array.range keys.size) 0 (keys.size - 1) (2 * (npyGetMsb keys.size : Int))
      (by rw [Array.size_range]; omega) (by omega)
    have hsz : ((aquicksortMain keys (2 * keys.size + 64) (Array.range keys.size) 0
        (keys.size - 1) (2 * (npyGetMsb keys.size : Int))).1).size = keys.size := by
      rw [hS, Array.size_range]
    rw [List.pairwise_iff_getElem]
    intro i j hi hj hij
    rw [Array.length_toList, hsz] at hi hj
    have hgi : (aquicksortMain keys (2 * keys.size + 64) (Array.range keys.size) 0
        (keys.size - 1) (2 * (npyGetMsb keys.size : Int))).1.getD i 0 =
        (aquicksortMain keys (2 * keys.size + 64) (Array.range keys.size) 0
        (keys.size - 1) (2 * (npyGetMsb keys.size : Int))).1.toList[i] := by
      rw [arr_getD_toList, List.getD_eq_getElem?_getD,
        List.getElem?_eq_getElem (by rw [Array.length_toList, hsz]; omega)]
      rfl
    have hgj : (aquicksortMain keys (2 * keys.size + 64) (Array.range keys.size) 0
        (keys.size - 1) (2 * (npyGetMsb keys.size : Int))).1.getD j 0 =
        (aquicksortMain keys (2 * keys.size + 64) (Array.range keys.size) 0
        (keys.size - 1) (2 * (npyGetMsb keys.size : Int))).1.toList[j] := by
      rw [arr_getD_toList, List.getD_eq_getElem?_getD,
        List.getElem?_eq_getElem (by rw [Array.length_toList, hsz]; omega)]
      rfl
    rw [← hgi, ← hgj]
    exact hP i j (by omega) (by omega) (by omega)

/-- Pairwise relations survive `filterMap` along a relation transport. -/
lemma pairwise_filterMap_of {α β : Type} {R : α → α → Prop} {S : β → β → Prop}
    (f : α → Option β) :
    ∀ l : List α, l.Pairwise R →
      (∀ a b x y, R a b → f a = some x → f b = some y → S x y) →
      (l.filterMap f).Pairwise S := by
  intro l
  induction l with
  | nil =>
    intro _ _
    exact List.Pairwise.nil
  | cons a l ih =>
    intro h himp
    rw [List.filterMap_cons]
    cases hfa : f a with
    | none => exact ih (List.pairwise_cons.mp h).2 himp
    | some x =>
      refine List.Pairwise.cons ?_ (ih (List.pairwise_cons.mp h).2 himp)
      intro y hy
      obtain ⟨b, hb, hfb⟩ := List.mem_filterMap.mp hy
      exact himp a b x y ((List.pairwise_cons.mp h).1 b hb) hfa hfb

/-- Records in ascending order of the selected rank value. -/
def ascendingByRank (col : String) (a b : Nat × Row) : Prop :=
  keyOf (rowGet a.2 col) ≤ keyOf (rowGet b.2 col)

/-- Line 140 leaves the rows ascending in the rank-column key, for every
input: the general ordering guarantee of `sort_values`. -/
lemma sortValues_pairwise (df : DataFrame) (col : String) :
    (sortValues df col).rows.Pairwise (ascendingByRank col) := by
  show ((npyArgsort ((df.rows.map fun r => keyOf (rowGet r.2 col)).toArray)).toList.filterMap
      (fun i => df.rows[i]?)).Pairwise (ascendingByRank col)
  apply pairwise_filterMap_of (fun i => df.rows[i]?) _
    (npyArgsort_pairwise ((df.rows.map fun r => keyOf (rowGet r.2 col)).toArray))
  intro a b x y hab hfa hfb
  have haL : a < df.rows.length := by
    by_contra hcon
    rw [List.getElem?_eq_none (by omega)] at hfa
    exact Option.noConfusion hfa
  have hbL : b < df.rows.length := by
    by_contra hcon
    rw [List.getElem?_eq_none (by omega)] at hfb
    exact Option.noConfusion hfb
  have hxa : x = df.rows.getD a (0, ([] : Row)) := by
    symm
    rw [List.getD_eq_getElem?_getD, hfa]
    rfl
  have hyb : y = df.rows.getD b (0, ([] : Row)) := by
    symm
    rw [List.getD_eq_getElem?_getD, hfb]
    rfl
  have hka := @keys_getD_eq df.rows col a haL
  have hkb := @keys_getD_eq df.rows col b hbL
  show keyOf (rowGet x.2 col) ≤ keyOf (rowGet y.2 col)
  rw [hxa, hyb, ← hka, ← hkb]
  exact hab

/-- C2 (amended): the ResultSet is always ordered ascending in the selected
rank value — numpy's introsort sorts on every path. But the sort is NOT
stable in general: only when at most 16 records survive the window does the
introsort reduce to its insertion sort, and then ties keep the original
dataset order. (For more than 16 survivors stability fails — see the
17-record refutation.) -/
theorem C2_amended (df : DataFrame) (c : Criteria) (res : DataFrame)
    (hvalid : validRankInput c.rankInput = true)
    (hmono : (df.rows.map Prod.fst).Pairwise (· < ·))
    (hres : (runPipeline df c).2 = Except.ok res) :
    res.rows.Pairwise (ascendingByRank c.rankCol) ∧
    ((preSortDF (selectCategory df c.rankCol) c
        (parseRank c.rankInput : Int)).rows.length ≤ 16 →
      res.rows.Pairwise (stableByRank c.rankCol)) := by
  rw [runPipeline_ok hvalid] at hres
  have hres' : res = matchStage (selectCategory df c.rankCol) c (parseRank c.rankInput : Int) :=
    ((Except.ok.injEq _ _).mp hres).symm
  subst hres'
  refine ⟨?_, fun hsmall => ?_⟩
  · exact sortValues_pairwise (preSortDF (selectCategory df c.rankCol) c
      (parseRank c.rankInput : Int)) c.rankCol
  · show (sortValues (preSortDF (selectCategory df c.rankCol) c
        (parseRank c.rankInput : Int)) c.rankCol).rows.Pairwise (stableByRank c.rankCol)
    set P := preSortDF (selectCategory df c.rankCol) c (parseRank c.rankInput : Int) with hP
    set keys := (P.rows.map fun r => keyOf (rowGet r.2 c.rankCol)).toArray with hkeys
    have hmonoP : (P.rows.map Prod.fst).Pairwise (· < ·) := by
      have hsub := preSortDF_indices_sublist (selectCategory df c.rankCol) c
        (parseRank c.rankInput : Int)
      rw [map_fst_selectCategory] at hsub
      exact hmono.sublist hsub
    rw [sortValues_small P c.rankCol hsmall, List.pairwise_map]
    apply (sortKeyed_pairwise keys (List.pairwise_lt_range P.rows.length)).imp_of_mem
    intro a b ha hb hab
    have han : a < P.rows.length := List.mem_range.mp (mem_sortKeyed.mp ha)
    have hbn : b < P.rows.length := List.mem_range.mp (mem_sortKeyed.mp hb)
    have hka := @keys_getD_eq P.rows c.rankCol a han
    have hkb := @keys_getD_eq P.rows c.rankCol b hbn
    rcases hab with h | ⟨heq, hlt⟩
    · exact Or.inl (by rw [← hka, ← hkb]; exact h)
    · exact Or.inr ⟨by rw [← hka, ← hkb]; exact heq, getD_fst_lt hmonoP han hbn hlt⟩

/-- Three-record dataset with a tie in the rank values. -/
def dfS : DataFrame :=
  ⟨["INSTCODE", "OC_BOYS"],
   [(0, [("INSTCODE", Value.str "A"), ("OC_BOYS", Value.num 27000)]),
    (1, [("INSTCODE", Value.str "B"), ("OC_BOYS", Value.num 26000)]),
    (2, [("INSTCODE", Value.str "C"), ("OC_BOYS", Value.num 26000)])]⟩

/-- The ResultSet of `dfS` under `cW`. -/
def resS : DataFrame := matchStage (selectCategory dfS "OC_BOYS") cW 25000

/-- Concrete instantiation of `C2_amended`: three survivors with a tie come
out ascending, and — being at most 16 — also stable. -/
theorem C2_amended_witness :
    resS.rows.Pairwise (ascendingByRank cW.rankCol) ∧
    resS.rows.Pairwise (stableByRank cW.rankCol) := by
  have h := C2_amended dfS cW resS (by decide) (by decide) rfl
  exact ⟨h.1, h.2 (by decide)⟩

/-- Seventeen records tied at rank 10000: one more than the insertion-sort
threshold, so the quicksort path runs. -/
def dfC2 : DataFrame :=
  ⟨["INSTCODE", "OC_BOYS"],
   (List.range 17).map fun i =>
     (i, [("INSTCODE", Value.str "X"), ("OC_BOYS", Value.num 10000)])⟩

/-- Query against `dfC2`: rank text `10000`, no filters. -/
def cC2 : Criteria := ⟨"OC_BOYS", "10000", [], [], []⟩

/-- The ResultSet of `dfC2` under `cC2`. -/
def resC2 : DataFrame := matchStage (selectCategory dfC2 "OC_BOYS") cC2 10000

/-- C2 refutation: on 17 records tied at rank 10000 (all inside the window
`[5000, 35000]`), the default `sort_values` quicksort of line 140 emits the
tied records out of original order — the index sequence begins
`0, 14, 13, …` — so the ResultSet is not stable, although the dataset was
in strictly increasing index order. -/
theorem C2_counterexample :
    (runPipeline dfC2 cC2).2 = Except.ok resC2 ∧
    (dfC2.rows.map Prod.fst).Pairwise (· < ·) ∧
    ¬ resC2.rows.Pairwise (stableByRank "OC_BOYS") :=
  ⟨rfl, by decide, by decide⟩

end ClgPredicter
